import Mathlib

/-!
Verification development for the `subtitle-translation` repository
(`src/main.py` and `src/sub_line_trans.py`).

Python strings are modelled as lists of characters (`Str := List Char`), so
that Python's `str.strip`, `str.split('\n')`, `str.split('\n\n')`,
`'\n'.join`, `int(...)` and the regex `^\d+$` become executable Lean
functions with provable algebraic properties.  Machine-level caveats of the
model, stated once here:

* `pyStrip` strips the six ASCII whitespace characters Python strips
  (space, tab, newline, carriage return, vertical tab, form feed);
  non-ASCII Unicode whitespace is not modelled.
* `pyParseInt` models `int(str)` with optional surrounding whitespace and an
  optional single leading sign over ASCII decimal digits; PEP 515 underscore
  grouping and non-ASCII digits are not modelled.  Likewise `isBareInt`
  models `re.match(r'^\d+$', s)` over ASCII digits.
* Python floats (the progress fractions) are modelled as exact rationals.
* Wall-clock effects (`time.sleep`) and remote calls are modelled as events
  in an explicit trace; the remote text-generation endpoint is an oracle
  parameter mapping (prompt text, attempt number) to a response or an
  exception.
-/

/-- Characters of a Python string. -/
abbrev Str := List Char

/-- The six whitespace characters stripped by Python's `str.strip()`
(ASCII fragment). -/
def isPySpace (c : Char) : Bool :=
  c = ' ' || c = '\t' || c = '\n' || c = '\r' || c = '\x0b' || c = '\x0c'

/-- Python `str.strip()`: drop leading and trailing whitespace. -/
def pyStrip (s : Str) : Str :=
  (s.dropWhile isPySpace).rdropWhile isPySpace

/-- Python `str.split('\n')`: split on every newline character.  Always
returns at least one (possibly empty) piece, like Python. -/
def splitNl : Str → List Str
  | [] => [[]]
  | c :: cs =>
    if c = '\n' then [] :: splitNl cs
    else
      match splitNl cs with
      | [] => [[c]]
      | l :: ls => (c :: l) :: ls

/-- Python `str.split('\n\n')`: split on each non-overlapping occurrence of
two consecutive newlines, scanning left to right. -/
def splitNlNl : Str → List Str
  | [] => [[]]
  | '\n' :: '\n' :: rest => [] :: splitNlNl rest
  | c :: rest =>
    match splitNlNl rest with
    | [] => [[c]]
    | l :: ls => (c :: l) :: ls

/-- Python `'\n'.join(lines)`. -/
def joinNl : List Str → Str
  | [] => []
  | [l] => l
  | l :: l' :: ls => l ++ '\n' :: joinNl (l' :: ls)

/-- Decimal digit character for a value below ten. -/
def digitCh (d : ℕ) : Char := Char.ofNat (48 + d)

/-- Numeric value of a big-endian list of decimal digit characters. -/
def digitsVal (s : Str) : ℕ :=
  s.foldl (fun a c => 10 * a + (c.toNat - 48)) 0

/-- Big-endian decimal digits of `n`, by repeated division; `fuel` bounds the
recursion depth and any `fuel ≥ n` is sufficient (the quotient shrinks
strictly at every step). -/
def toDecimalAux : ℕ → ℕ → Str
  | 0, _ => []
  | fuel + 1, n => if n = 0 then [] else toDecimalAux fuel (n / 10) ++ [digitCh (n % 10)]

/-- Decimal rendering of a natural number, as Python's `str` produces it. -/
def natToChars (n : ℕ) : Str :=
  if n = 0 then ['0'] else toDecimalAux (n + 1) n

/-- Python `str(i)` for an `int` value: canonical decimal, `-` sign for
negatives. -/
def renderInt (i : ℤ) : Str :=
  if i < 0 then '-' :: natToChars i.natAbs else natToChars i.natAbs

/-- Python `int(s)`: strip surrounding whitespace, accept one optional sign
followed by a nonempty run of decimal digits; anything else raises
`ValueError`, modelled as `none`. -/
def pyParseInt (l : Str) : Option ℤ :=
  match pyStrip l with
  | [] => none
  | c :: rest =>
    if c = '-' then
      if rest ≠ [] ∧ rest.all Char.isDigit then some (-(digitsVal rest : ℤ)) else none
    else if c = '+' then
      if rest ≠ [] ∧ rest.all Char.isDigit then some ((digitsVal rest : ℤ)) else none
    else if (c :: rest).all Char.isDigit then some ((digitsVal (c :: rest) : ℤ)) else none

/-- The regex `^\d+$` of `sub_line_trans.py`: a nonempty run of decimal
digits and nothing else. -/
def isBareInt (s : Str) : Bool :=
  !s.isEmpty && s.all Char.isDigit

/-- Observable actions of the translation pipeline, in order of occurrence:
a remote generation attempt, a `time.sleep(d)`, or an invocation of the
progress callback.  A progress event records the exact numerator and
denominator of the fraction passed to the callback (the Python code passes
the float `num / den`; `progressFraction` recovers its value). -/
inductive Event where
  | attempt : Event
  | sleep (d : ℕ) : Event
  | progress (num den : ℕ) : Event
deriving DecidableEq

/-- The fraction a progress event hands to the callback. -/
def progressFraction (num den : ℕ) : ℚ := (num : ℚ) / (den : ℚ)

/-- The sentinel text substituted when translation fails
(`"TRANSLATION_ERROR"` in `main.py`). -/
def SENTINEL : Str := "TRANSLATION_ERROR".data

/-- One serialized subtitle block, as built by the output loop of
`translate_srt_content` (`main.py` lines 160-163) and by
`format_selected_subtitles` (`sub_line_trans.py` lines 73-76):
`f"{id}\n{timestamp}\n{body}\n\n"`. -/
def renderBlock (i : ℤ) (ts : Str) (body : Str) : Str :=
  renderInt i ++ '\n' :: (ts ++ '\n' :: (body ++ ['\n', '\n']))

namespace SubLine

/-- A parsed subtitle of `sub_line_trans.py` (`parse_srt`, lines 53-57):
a dict with keys `number`, `timestamp`, `text`. -/
structure LSub where
  number : ℤ
  timestamp : Str
  text : Str
deriving DecidableEq

/-- The inner `while` condition of `parse_srt` (`sub_line_trans.py` line 47):
the stripped line is nonempty and is not a bare integer. -/
def textLineB (l : Str) : Bool :=
  !(pyStrip l).isEmpty && !isBareInt (pyStrip l)

/-- The `while i < len(lines)` loop of `parse_srt` (`sub_line_trans.py`
lines 25-57), with the loop index `i` explicit.  The inner text-collecting
`while` loop (lines 47-49) advances `i` over the maximal run of lines
satisfying `textLineB`, which is exactly `takeWhile textLineB` of the
remaining lines; `k` is its length, so the outer loop resumes at
`i + 2 + k`. -/
def parseFrom (lines : List Str) (i : ℕ) : List LSub :=
  if h : i < lines.length then
    let l := lines.get ⟨i, h⟩
    if pyStrip l = [] then parseFrom lines (i + 1)
    else
      match pyParseInt l with
      | none => parseFrom lines (i + 1)
      | some n =>
        if h2 : i + 1 < lines.length then
          let ts := pyStrip (lines.get ⟨i + 1, h2⟩)
          let k := ((lines.drop (i + 2)).takeWhile textLineB).length
          let textLines := ((lines.drop (i + 2)).take k).map pyStrip
          ⟨n, ts, joinNl textLines⟩ :: parseFrom lines (i + 2 + k)
        else []
  else []
termination_by lines.length - i
decreasing_by all_goals omega

/-- `parse_srt` of `sub_line_trans.py` (lines 19-59): strip the content,
split into lines, run the line scanner from index 0. -/
def parse_srt (content : Str) : List LSub :=
  parseFrom (splitNl (pyStrip content)) 0

/-- Specification-level restatement of the line scanner as a structurally
recursive pass over the remaining lines.  The second argument is the
scanner's mode: `none` while looking for an id line, `some (n, ts, acc)`
while collecting text lines (in reverse) for a pending entry.  Blank lines
and lines that fail integer parsing are skipped individually; an integer
line with no following line ends the scan; a bare-integer line ends the
current text run and immediately starts the next entry. -/
def scanSpec : List Str → Option (ℤ × Str × List Str) → List LSub
  | [], none => []
  | [], some (n, ts, acc) => [⟨n, ts, joinNl acc.reverse⟩]
  | l :: ls, none =>
    if pyStrip l = [] then scanSpec ls none
    else
      match pyParseInt l with
      | none => scanSpec ls none
      | some n =>
        match ls with
        | [] => []
        | ts :: rest => scanSpec rest (some (n, pyStrip ts, []))
  | l :: ls, some (n, ts, acc) =>
    if pyStrip l = [] then ⟨n, ts, joinNl acc.reverse⟩ :: scanSpec ls none
    else if isBareInt (pyStrip l) then
      ⟨n, ts, joinNl acc.reverse⟩ ::
        (match ls with
         | [] => []
         | ts2 :: rest => scanSpec rest (some ((digitsVal (pyStrip l) : ℤ), pyStrip ts2, [])))
    else scanSpec ls (some (n, ts, pyStrip l :: acc))

/-- The Reassembler applied with `translatedText` fixed to `sourceText`:
serialize each entry back to the `id`/`timestamp`/`text` block format with a
blank-line terminator (`main.py` lines 160-163, body taken from the source
text). -/
def reassembleSelf (es : List LSub) : Str :=
  (es.map fun e => renderBlock e.number e.timestamp e.text).flatten

/-- An abstract subtitle block: an integer id, a timestamp line and the
list of text lines of the body. -/
structure BlockData where
  num : ℤ
  ts : Str
  body : List Str

/-- A well-formed block: the timestamp line is a single already-stripped
line, and the body is a nonempty list of single nonempty already-stripped
lines none of which is a bare integer.  These are exactly the inputs on
which serialization is injective for the line scanner. -/
def canonBlock (b : BlockData) : Prop :=
  pyStrip b.ts = b.ts ∧ '\n' ∉ b.ts ∧ b.body ≠ [] ∧
    ∀ l ∈ b.body, pyStrip l = l ∧ l ≠ [] ∧ '\n' ∉ l ∧ isBareInt l = false

instance : DecidablePred canonBlock := fun b => by
  unfold canonBlock; infer_instance

/-- The entry a well-formed block describes. -/
def entryOf (b : BlockData) : LSub :=
  ⟨b.num, b.ts, joinNl b.body⟩

/-- Follows the claim's words: the per-line normalization of a text blob,
"the original with every line stripped of surrounding whitespace". -/
def specNormalizePerLine (content : Str) : Str :=
  joinNl ((splitNl content).map pyStrip)

/-- The serialized characters of one well-formed block: what the
Reassembler emits for its entry. -/
def blockChars (b : BlockData) : Str :=
  renderBlock b.num b.ts (joinNl b.body)

/-- The serialized characters of a block without its final blank-line
terminator (what remains of the last block after `str.strip()`). -/
def coreChars (b : BlockData) : Str :=
  renderInt b.num ++ '\n' :: (b.ts ++ '\n' :: joinNl b.body)

/-- The lines a non-final block contributes to the split content: id line,
timestamp line, body lines, and the blank separator line. -/
def blockLinesF (b : BlockData) : List Str :=
  renderInt b.num :: b.ts :: (b.body ++ [[]])

end SubLine

namespace SrtMain

/-- A parsed subtitle of `main.py` (`parse_srt`, lines 109-113): a dict with
keys `id`, `timestamp`, `text`, plus the `translated_text` key that
`translate_srt_content` adds later (line 153), absent (`none`) after
parsing. -/
structure MSub where
  id : ℤ
  timestamp : Str
  text : Str
  translated : Option Str
deriving DecidableEq

/-- `self.max_retries` (`main.py` line 16). -/
def max_retries : ℕ := 3

/-- `self.retry_delay`, in seconds (`main.py` line 17). -/
def retry_delay : ℕ := 1

/-- The line-count adjustment of `translate_batch` (`main.py` lines 76-82):
if the number of returned lines differs from the requested count, truncate
or pad with empty strings. -/
def adjustLines (ls : List Str) (n : ℕ) : List Str :=
  if ls.length ≠ n then
    if ls.length > n then ls.take n
    else ls ++ List.replicate (n - ls.length) []
  else ls

/-- The `for attempt in range(self.max_retries)` loop of `translate_batch`
(`main.py` lines 65-93).  `gen attempt` is the outcome of the remote
generation call on that attempt (`.ok blob` is `response.text`, `.error` is
any raised exception); `fuel` counts the remaining iterations, so the loop
starts at `(attempt, fuel) = (0, max_retries)` and `fuel` never reaches 0
(the final attempt returns the sentinel instead of recursing).  On success
the blob is stripped, split on newlines and adjusted to `n` lines; on
failure the loop sleeps `retry_delay * (attempt + 1)` seconds and retries,
except on the last attempt, where it returns the sentinel repeated `n`
times.  Every event is recorded in the returned trace. -/
def tbGo (gen : ℕ → Except Unit Str) (n : ℕ) : ℕ → ℕ → List Str × List Event
  | _, 0 => ([], [])
  | attempt, fuel + 1 =>
    match gen attempt with
    | .ok blob => (adjustLines (splitNl (pyStrip blob)) n, [.attempt])
    | .error _ =>
      if attempt < max_retries - 1 then
        let r := tbGo gen n (attempt + 1) fuel
        (r.1, .attempt :: .sleep (retry_delay * (attempt + 1)) :: r.2)
      else (List.replicate n SENTINEL, [.attempt])

/-- `translate_batch` of `main.py` (lines 57-93).  The oracle `gen` maps the
joined batch text (the only varying part of the prompt) and the attempt
number to the remote call's outcome.  Returns the translated lines together
with the trace of attempts and sleeps; an empty input returns immediately
with no remote call (line 59-60). -/
def translate_batch (gen : Str → ℕ → Except Unit Str) (text_lines : List Str) :
    List Str × List Event :=
  if text_lines.isEmpty then ([], [])
  else tbGo (gen (joinNl text_lines)) text_lines.length 0 max_retries

/-- `parse_srt` of `main.py` (lines 95-122): strip the content, split into
blocks on blank lines (`'\n\n'`), keep each block with at least 3 lines
whose first line parses as an integer; the second line is the timestamp and
the remaining lines, newline-joined, the text.  Blocks failing either test
are skipped. -/
def parse_srt (content : Str) : List MSub :=
  (splitNlNl (pyStrip content)).filterMap fun block =>
    match splitNl block with
    | l0 :: l1 :: l2 :: rest =>
      match pyParseInt l0 with
      | some n => some ⟨n, l1, joinNl (l2 :: rest), none⟩
      | none => none
    | _ => none

/-- Write a translation into the entry at one position
(`subtitles[i + j]['translated_text'] = translated_text`, `main.py`
line 153); out-of-range positions leave the list unchanged. -/
def setTrans : List MSub → ℕ → Str → List MSub
  | [], _, _ => []
  | e :: es, 0, t => { e with translated := some t } :: es
  | e :: es, n + 1, t => e :: setTrans es n t

/-- The `for j, translated_text in enumerate(translated_texts)` loop of
`translate_srt_content` (`main.py` lines 152-153). -/
def writeBatch : List MSub → ℕ → List Str → List MSub
  | subs, _, [] => subs
  | subs, i, t :: ts => writeBatch (setTrans subs i t) (i + 1) ts

/-- The indices produced by `range(0, N, B)` for `B ≥ 1` (`main.py`
line 135): `0, B, 2B, ...`, one per batch, `⌈N / B⌉` of them. -/
def batchStarts (N B : ℕ) : List ℕ :=
  (List.range ((N + B - 1) / B)).map (· * B)

/-- The Batcher: the slices `subtitles[i:min(i + B, N)]` taken by the batch
loop of `translate_srt_content` (`main.py` lines 135-137). -/
def batchSlices {α : Type} (l : List α) (B : ℕ) : List (List α) :=
  (batchStarts l.length B).map fun i => (l.drop i).take (min (i + B) l.length - i)

/-- The batch loop of `translate_srt_content` (`main.py` lines 135-157),
one recursive step per `range(0, total, B)` index.  Each iteration emits the
progress fraction `i / total` (line 143), slices the batch, calls
`translate_batch` (whose remote oracle for batch `bIdx` is `genB bIdx`),
writes the results at offsets `i + j`, and sleeps 1 second if this is not
the final batch (lines 156-157).  Returns the updated entries and the event
trace. -/
def runGo (genB : ℕ → Str → ℕ → Except Unit Str) (B total : ℕ) :
    List ℕ → ℕ → List MSub → List MSub × List Event
  | [], _, subs => (subs, [])
  | i :: starts, bIdx, subs =>
    let batchEnd := min (i + B) total
    let current := (subs.drop i).take (batchEnd - i)
    let tb := translate_batch (genB bIdx) (current.map (·.text))
    let subs' := writeBatch subs i tb.1
    let rest := runGo genB B total starts (bIdx + 1) subs'
    (rest.1,
      Event.progress i total ::
        (tb.2 ++ (if batchEnd < total then [Event.sleep 1] else []) ++ rest.2))

/-- The output loop of `translate_srt_content` (`main.py` lines 160-163):
serialize every entry as `f"{id}\n{timestamp}\n{translated_text}\n\n"`.
Reading the `translated_text` key of an entry that never received one
raises `KeyError`, modelled as `none`. -/
def serializeSubs : List MSub → Option Str
  | [] => some []
  | e :: es =>
    match e.translated, serializeSubs es with
    | some t, some rest => some (renderBlock e.id e.timestamp t ++ rest)
    | _, _ => none

/-- `translate_srt_content` of `main.py` (lines 124-173): parse, run the
batch loop over `range(0, total, B)`, serialize, and emit a final progress
of 1.0.  `B = 0` makes `range(0, total, 0)` raise `ValueError`, and a
`KeyError` in the output loop propagates; both are modelled as `.error`
(the function's own `except` clause re-raises, line 173). -/
def translate_srt_content (genB : ℕ → Str → ℕ → Except Unit Str) (content : Str) (B : ℕ) :
    Except Unit (Str × List Event) :=
  if B = 0 then .error ()
  else
    let subs := parse_srt content
    let total := subs.length
    let r := runGo genB B total (batchStarts total B) 0 subs
    match serializeSubs r.1 with
    | none => .error ()
    | some out => .ok (out, r.2 ++ [Event.progress 1 1])

end SrtMain

/-- The progress invocations of a trace, in order, as (numerator,
denominator) pairs. -/
def progressEvents (evs : List Event) : List (ℕ × ℕ) :=
  evs.filterMap fun e =>
    match e with
    | .progress a b => some (a, b)
    | _ => none

/-- The number of remote generation attempts recorded in a trace. -/
def attemptCount (evs : List Event) : ℕ :=
  (evs.filter fun e =>
    match e with
    | .attempt => true
    | _ => false).length

namespace SrtMain

/-- The immutable fields of an entry (everything except `translated`). -/
def fieldsOf (e : MSub) : ℤ × Str × Str := (e.id, e.timestamp, e.text)

end SrtMain

/-! ### Lemmas about the string model -/

lemma splitNl_ne_nil (s : Str) : splitNl s ≠ [] := by
  induction s with
  | nil => simp [splitNl]
  | cons c cs ih =>
    by_cases hc : c = '\n'
    · simp [splitNl, hc]
    · simp only [splitNl, if_neg hc]
      cases hE : splitNl cs <;> simp

lemma splitNl_cons_nl (cs : Str) : splitNl ('\n' :: cs) = [] :: splitNl cs := by
  simp [splitNl]

lemma splitNl_cons_ne {c : Char} (h : c ≠ '\n') {cs l : Str} {ls : List Str}
    (hE : splitNl cs = l :: ls) : splitNl (c :: cs) = (c :: l) :: ls := by
  simp [splitNl, h, hE]

lemma splitNl_append_nl (xs ys : Str) :
    splitNl (xs ++ '\n' :: ys) = splitNl xs ++ splitNl ys := by
  induction xs with
  | nil => simp [splitNl_cons_nl, splitNl]
  | cons c cs ih =>
    by_cases hc : c = '\n'
    · subst hc
      simp only [List.cons_append, splitNl_cons_nl, ih, List.cons_append]
    · obtain ⟨l, ls, hE⟩ : ∃ l ls, splitNl cs = l :: ls := by
        cases hE : splitNl cs with
        | nil => exact absurd hE (splitNl_ne_nil cs)
        | cons l ls => exact ⟨l, ls, rfl⟩
      have hE' : splitNl (cs ++ '\n' :: ys) = (l :: (ls ++ splitNl ys)) := by
        rw [ih, hE]; simp
      rw [List.cons_append, splitNl_cons_ne hc hE', splitNl_cons_ne hc hE]
      simp

lemma splitNl_of_not_mem {s : Str} (h : '\n' ∉ s) : splitNl s = [s] := by
  induction s with
  | nil => rfl
  | cons c cs ih =>
    have hc : c ≠ '\n' := fun hc => h (hc ▸ List.mem_cons_self c cs)
    have hcs : '\n' ∉ cs := fun hm => h (List.mem_cons_of_mem c hm)
    exact splitNl_cons_ne hc (ih hcs)

lemma not_mem_of_mem_splitNl {s l : Str} (h : l ∈ splitNl s) : '\n' ∉ l := by
  induction s generalizing l with
  | nil =>
    simp [splitNl] at h
    simp [h]
  | cons c cs ih =>
    by_cases hc : c = '\n'
    · subst hc
      rw [splitNl_cons_nl] at h
      rcases List.mem_cons.mp h with h | h
      · simp [h]
      · exact ih h
    · obtain ⟨l0, ls, hE⟩ : ∃ l0 ls, splitNl cs = l0 :: ls := by
        cases hE : splitNl cs with
        | nil => exact absurd hE (splitNl_ne_nil cs)
        | cons l0 ls => exact ⟨l0, ls, rfl⟩
      rw [splitNl_cons_ne hc hE] at h
      rcases List.mem_cons.mp h with h | h
      · subst h
        intro hm
        rcases List.mem_cons.mp hm with hm | hm
        · exact hc hm.symm
        · exact ih (hE ▸ List.mem_cons_self l0 ls) hm
      · exact ih (hE ▸ List.mem_cons_of_mem l0 h)

lemma joinNl_splitNl (s : Str) : joinNl (splitNl s) = s := by
  induction s with
  | nil => rfl
  | cons c cs ih =>
    by_cases hc : c = '\n'
    · subst hc
      rw [splitNl_cons_nl]
      obtain ⟨l, ls, hE⟩ : ∃ l ls, splitNl cs = l :: ls := by
        cases hE : splitNl cs with
        | nil => exact absurd hE (splitNl_ne_nil cs)
        | cons l ls => exact ⟨l, ls, rfl⟩
      rw [hE] at ih ⊢
      simpa [joinNl] using ih
    · obtain ⟨l, ls, hE⟩ : ∃ l ls, splitNl cs = l :: ls := by
        cases hE : splitNl cs with
        | nil => exact absurd hE (splitNl_ne_nil cs)
        | cons l ls => exact ⟨l, ls, rfl⟩
      rw [splitNl_cons_ne hc hE]
      rw [hE] at ih
      cases ls with
      | nil => simpa [joinNl] using ih
      | cons l2 ls' =>
        simp only [joinNl] at ih ⊢
        rw [← ih]
        simp

lemma splitNl_joinNl {ls : List Str} (h : ls ≠ []) (hnl : ∀ l ∈ ls, '\n' ∉ l) :
    splitNl (joinNl ls) = ls := by
  induction ls with
  | nil => exact absurd rfl h
  | cons l ls ih =>
    cases ls with
    | nil => exact splitNl_of_not_mem (hnl l (List.mem_cons_self l []))
    | cons l2 ls' =>
      have : joinNl (l :: l2 :: ls') = l ++ '\n' :: joinNl (l2 :: ls') := rfl
      rw [this, splitNl_append_nl, splitNl_of_not_mem (hnl l (by simp)),
        ih (by simp) (fun x hx => hnl x (List.mem_cons_of_mem l hx))]
      simp

lemma pyStrip_nil : pyStrip [] = [] := rfl

lemma pyStrip_of_no_space {s : Str} (h : ∀ c ∈ s, isPySpace c = false) :
    pyStrip s = s := by
  unfold pyStrip
  have h1 : s.dropWhile isPySpace = s := by
    rw [List.dropWhile_eq_self_iff]
    intro hl
    simp [h _ (List.getElem_mem hl)]
  rw [h1, List.rdropWhile_eq_self_iff]
  intro hs
  simp [h _ (List.getLast_mem hs)]

lemma rdropWhile_pyStrip (s : Str) :
    (pyStrip s).rdropWhile isPySpace = pyStrip s := by
  unfold pyStrip
  exact List.rdropWhile_idempotent _ _

lemma isPySpace_of_isDigit {c : Char} (h : c.isDigit = true) : isPySpace c = false := by
  rcases Bool.eq_false_or_eq_true (isPySpace c) with ht | hf
  · exfalso
    have h6 : c = ' ' ∨ c = '\t' ∨ c = '\n' ∨ c = '\r' ∨ c = '\x0b' ∨ c = '\x0c' := by
      simpa [isPySpace, or_assoc] using ht
    rcases h6 with h1 | h1 | h1 | h1 | h1 | h1 <;> subst h1 <;> exact absurd h (by decide)
  · exact hf

lemma digitCh_facts {d : ℕ} (h : d < 10) :
    (digitCh d).isDigit = true ∧ (digitCh d).toNat - 48 = d ∧
      digitCh d ≠ '-' ∧ digitCh d ≠ '+' ∧ digitCh d ≠ '\n' := by
  interval_cases d <;> refine ⟨by decide, by decide, by decide, by decide, by decide⟩

lemma digitsVal_append_one (xs : Str) (c : Char) :
    digitsVal (xs ++ [c]) = 10 * digitsVal xs + (c.toNat - 48) := by
  simp [digitsVal]

lemma toDecimalAux_all_digits : ∀ fuel n, ∀ c ∈ toDecimalAux fuel n, c.isDigit = true := by
  intro fuel
  induction fuel with
  | zero => intro n c hc; simp [toDecimalAux] at hc
  | succ fuel ih =>
    intro n c hc
    by_cases hn : n = 0
    · simp [toDecimalAux, hn] at hc
    · rw [toDecimalAux, if_neg hn] at hc
      rcases List.mem_append.mp hc with hc | hc
      · exact ih _ c hc
      · have : c = digitCh (n % 10) := by simpa using hc
        subst this
        exact (digitCh_facts (Nat.mod_lt _ (by norm_num))).1

lemma digitsVal_toDecimalAux : ∀ fuel n, n ≤ fuel → digitsVal (toDecimalAux fuel n) = n := by
  intro fuel
  induction fuel with
  | zero => intro n hn; interval_cases n; simp [toDecimalAux, digitsVal]
  | succ fuel ih =>
    intro n hn
    by_cases hn0 : n = 0
    · simp [toDecimalAux, hn0, digitsVal]
    · rw [toDecimalAux, if_neg hn0, digitsVal_append_one]
      have hdiv : n / 10 ≤ fuel := by
        have := Nat.div_lt_self (Nat.pos_of_ne_zero hn0) (by norm_num : (1:ℕ) < 10)
        omega
      rw [ih _ hdiv, (digitCh_facts (Nat.mod_lt _ (by norm_num))).2.1]
      omega

lemma toDecimalAux_ne_nil {fuel n : ℕ} (hf : n ≤ fuel) (hn : n ≠ 0) :
    toDecimalAux fuel n ≠ [] := by
  cases fuel with
  | zero => omega
  | succ fuel => rw [toDecimalAux, if_neg hn]; simp

lemma natToChars_all_digits (n : ℕ) : ∀ c ∈ natToChars n, c.isDigit = true := by
  unfold natToChars
  by_cases hn : n = 0
  · simp [hn]
  · rw [if_neg hn]
    exact toDecimalAux_all_digits _ n

lemma natToChars_ne_nil (n : ℕ) : natToChars n ≠ [] := by
  unfold natToChars
  by_cases hn : n = 0
  · simp [hn]
  · rw [if_neg hn]
    exact toDecimalAux_ne_nil (by omega) hn

lemma digitsVal_natToChars (n : ℕ) : digitsVal (natToChars n) = n := by
  unfold natToChars
  by_cases hn : n = 0
  · simp [hn, digitsVal]
  · rw [if_neg hn]
    exact digitsVal_toDecimalAux _ n (by omega)

lemma isDigit_ne_special {c : Char} (h : c.isDigit = true) :
    c ≠ '-' ∧ c ≠ '+' ∧ c ≠ '\n' := by
  refine ⟨?_, ?_, ?_⟩ <;> intro hc <;> subst hc <;> exact absurd h (by decide)

lemma pyStrip_of_all_digits {s : Str} (h : s.all Char.isDigit = true) :
    pyStrip s = s := by
  refine pyStrip_of_no_space fun c hc => ?_
  exact isPySpace_of_isDigit (by simpa using List.all_eq_true.mp h c hc)

lemma natToChars_all_eq (n : ℕ) : (natToChars n).all Char.isDigit = true := by
  rw [List.all_eq_true]
  intro c hc
  simpa using natToChars_all_digits n c hc

lemma pyParseInt_natToChars (n : ℕ) : pyParseInt (natToChars n) = some (n : ℤ) := by
  obtain ⟨c, rest, hcr⟩ := List.exists_cons_of_ne_nil (natToChars_ne_nil n)
  have hstrip : pyStrip (natToChars n) = c :: rest := by
    rw [pyStrip_of_all_digits (natToChars_all_eq n), hcr]
  have hcd : c.isDigit = true := natToChars_all_digits n c (by rw [hcr]; simp)
  have hall : (c :: rest).all Char.isDigit = true := by rw [← hcr]; exact natToChars_all_eq n
  have hval : digitsVal (c :: rest) = n := by rw [← hcr]; exact digitsVal_natToChars n
  simp only [pyParseInt, hstrip, if_neg (isDigit_ne_special hcd).1,
    if_neg (isDigit_ne_special hcd).2.1, if_pos hall, hval]

lemma renderInt_no_space (i : ℤ) : ∀ c ∈ renderInt i, isPySpace c = false := by
  intro c hc
  unfold renderInt at hc
  by_cases hi : i < 0
  · rw [if_pos hi] at hc
    rcases List.mem_cons.mp hc with hc | hc
    · subst hc; decide
    · exact isPySpace_of_isDigit (natToChars_all_digits _ c hc)
  · rw [if_neg hi] at hc
    exact isPySpace_of_isDigit (natToChars_all_digits _ c hc)

lemma renderInt_no_nl (i : ℤ) : '\n' ∉ renderInt i := by
  intro hm
  have := renderInt_no_space i '\n' hm
  simp [isPySpace] at this

lemma renderInt_ne_nil (i : ℤ) : renderInt i ≠ [] := by
  unfold renderInt
  by_cases hi : i < 0
  · rw [if_pos hi]; simp
  · rw [if_neg hi]; exact natToChars_ne_nil _

lemma pyStrip_renderInt (i : ℤ) : pyStrip (renderInt i) = renderInt i :=
  pyStrip_of_no_space (renderInt_no_space i)

lemma pyParseInt_renderInt (i : ℤ) : pyParseInt (renderInt i) = some i := by
  by_cases hi : i < 0
  · have hren : renderInt i = '-' :: natToChars i.natAbs := by
      unfold renderInt; rw [if_pos hi]
    have hstrip : pyStrip (renderInt i) = '-' :: natToChars i.natAbs := by
      rw [pyStrip_renderInt, hren]
    have hne : natToChars i.natAbs ≠ [] := natToChars_ne_nil _
    have hval : digitsVal (natToChars i.natAbs) = i.natAbs := digitsVal_natToChars _
    have hand : natToChars i.natAbs ≠ [] ∧ (natToChars i.natAbs).all Char.isDigit = true :=
      ⟨hne, natToChars_all_eq _⟩
    have habs : (-(i.natAbs : ℤ)) = i := by omega
    simp only [pyParseInt, hstrip, if_pos rfl, if_pos hand, hval, habs, if_true]
  · have hren : renderInt i = natToChars i.natAbs := by
      unfold renderInt; rw [if_neg hi]
    rw [hren, pyParseInt_natToChars]
    congr 1
    omega

lemma pyParseInt_of_bareInt {l : Str} (h : isBareInt (pyStrip l) = true) :
    pyParseInt l = some ((digitsVal (pyStrip l) : ℕ) : ℤ) := by
  have hne : pyStrip l ≠ [] := by
    intro h0
    rw [h0] at h
    simp [isBareInt] at h
  have hall : (pyStrip l).all Char.isDigit = true := by
    simp only [isBareInt, Bool.and_eq_true] at h
    exact h.2
  obtain ⟨c, rest, hcr⟩ := List.exists_cons_of_ne_nil hne
  have hcd : c.isDigit = true := by
    have := List.all_eq_true.mp hall c (by rw [hcr]; simp)
    simpa using this
  rw [hcr] at hall
  simp only [pyParseInt, hcr, if_neg (isDigit_ne_special hcd).1,
    if_neg (isDigit_ne_special hcd).2.1, if_pos hall]

lemma take_length_takeWhile {α : Type} (p : α → Bool) (l : List α) :
    l.take ((l.takeWhile p).length) = l.takeWhile p := by
  induction l with
  | nil => rfl
  | cons a l ih =>
    by_cases ha : p a
    · simp [List.takeWhile_cons, ha, ih]
    · simp [List.takeWhile_cons, ha]

lemma drop_length_takeWhile {α : Type} (p : α → Bool) (l : List α) :
    l.drop ((l.takeWhile p).length) = l.dropWhile p := by
  induction l with
  | nil => rfl
  | cons a l ih =>
    by_cases ha : p a
    · simp [List.takeWhile_cons, List.dropWhile_cons, ha, ih]
    · simp [List.takeWhile_cons, List.dropWhile_cons, ha]

namespace SubLine

lemma textLineB_false_of_blank {l : Str} (hb : pyStrip l = []) : textLineB l = false := by
  simp [textLineB, hb]

lemma textLineB_false_of_bare {l : Str} (hbare : isBareInt (pyStrip l) = true) :
    textLineB l = false := by
  simp [textLineB, hbare]

lemma textLineB_true {l : Str} (hb : pyStrip l ≠ []) (hbare : isBareInt (pyStrip l) = false) :
    textLineB l = true := by
  simp [textLineB, hb, hbare]



lemma scanSpec_collect (ls : List Str) (n : ℤ) (ts : Str) (acc : List Str) :
    scanSpec ls (some (n, ts, acc)) =
      ⟨n, ts, joinNl (acc.reverse ++ (ls.takeWhile textLineB).map pyStrip)⟩ ::
        scanSpec (ls.dropWhile textLineB) none := by
  induction ls generalizing acc with
  | nil => simp [scanSpec]
  | cons l ls ih =>
    by_cases hb : pyStrip l = []
    · have htl := textLineB_false_of_blank hb
      rw [List.takeWhile_cons, List.dropWhile_cons, htl]
      simp only [Bool.false_eq_true, if_false, List.map_nil, List.append_nil]
      rw [scanSpec.eq_3 l ls, if_pos hb]
      cases ls with
      | nil => rw [scanSpec.eq_4, if_pos hb]
      | cons l2 ls2 => rw [scanSpec.eq_5, if_pos hb]
    · by_cases hbare : isBareInt (pyStrip l) = true
      · have htl := textLineB_false_of_bare hbare
        rw [List.takeWhile_cons, List.dropWhile_cons, htl]
        simp only [Bool.false_eq_true, if_false, List.map_nil, List.append_nil]
        rw [scanSpec.eq_3 l ls, if_neg hb, pyParseInt_of_bareInt hbare]
        cases ls with
        | nil => rw [scanSpec.eq_4, if_neg hb, if_pos hbare]
        | cons l2 ls2 => rw [scanSpec.eq_5, if_neg hb, if_pos hbare]
      · have hbare' : isBareInt (pyStrip l) = false := by simpa using hbare
        have htl := textLineB_true hb hbare'
        rw [List.takeWhile_cons, List.dropWhile_cons, htl]
        simp only [if_true]
        cases ls with
        | nil =>
          rw [scanSpec.eq_4, if_neg hb, if_neg (by simp [hbare'])]
          simp [scanSpec]
        | cons l2 ls2 =>
          rw [scanSpec.eq_5, if_neg hb, if_neg (by simp [hbare']), ih]
          simp

lemma parseFrom_eq_scanSpec (lines : List Str) (i : ℕ) :
    parseFrom lines i = scanSpec (lines.drop i) none := by
  induction i using SubLine.parseFrom.induct
  case lines => exact lines
  case case1 i hlt l hblank ih =>
    rw [parseFrom]
    simp only [dif_pos hlt, if_pos hblank, ih, List.drop_eq_getElem_cons hlt]
    rw [scanSpec.eq_3, if_pos (by simpa using hblank)]
  case case2 i hlt l hblank hparse ih =>
    rw [parseFrom]
    simp only [dif_pos hlt, if_neg hblank, hparse, ih, List.drop_eq_getElem_cons hlt]
    rw [scanSpec.eq_3, if_neg (by simpa using hblank)]
    have hparse' : pyParseInt lines[i] = none := by simpa using hparse
    rw [hparse']
  case case3 i hlt l hblank n hparse h2 k ih =>
    rw [parseFrom]
    simp only [dif_pos hlt, if_neg hblank, hparse, dif_pos h2]
    rw [List.drop_eq_getElem_cons hlt, List.drop_eq_getElem_cons h2]
    rw [scanSpec.eq_3, if_neg (by simpa using hblank)]
    have hparse' : pyParseInt lines[i] = some n := by simpa using hparse
    rw [hparse']
    show _ = scanSpec (lines.drop (i + 1 + 1)) (some (n, pyStrip lines[i + 1], [])) 
    rw [scanSpec_collect]
    have hdrop2 : lines.drop (i + 1 + 1) = lines.drop (i + 2) := by norm_num
    have htail : (lines.drop (i + 2)).dropWhile textLineB = lines.drop (i + 2 + k) := by
      rw [← drop_length_takeWhile textLineB (lines.drop (i + 2)), List.drop_drop]
    have htake : ((lines.drop (i + 2)).take k).map pyStrip
        = ((lines.drop (i + 2)).takeWhile textLineB).map pyStrip := by
      rw [take_length_takeWhile]
    rw [hdrop2, htail, ih]
    simp only [List.nil_append, List.reverse_nil]
    congr 2
    exact congrArg joinNl htake
  case case4 i hlt l hblank n hparse h2 =>
    rw [parseFrom]
    simp only [dif_pos hlt, if_neg hblank, hparse, dif_neg h2]
    rw [List.drop_eq_getElem_cons hlt]
    have hnil : lines.drop (i + 1) = [] := List.drop_eq_nil_of_le (by omega)
    rw [hnil, scanSpec.eq_3, if_neg (by simpa using hblank)]
    have hparse' : pyParseInt lines[i] = some n := by simpa using hparse
    rw [hparse']
  case case5 i hlt =>
    rw [parseFrom]
    simp only [dif_neg hlt]
    rw [List.drop_eq_nil_of_le (by omega), scanSpec.eq_1]

lemma parse_srt_eq_scanSpec (content : Str) :
    parse_srt content = scanSpec (splitNl (pyStrip content)) none := by
  unfold parse_srt
  exact parseFrom_eq_scanSpec _ 0

end SubLine

namespace SrtMain

lemma adjustLines_length (ls : List Str) (n : ℕ) : (adjustLines ls n).length = n := by
  unfold adjustLines
  split_ifs with h1 h2
  all_goals try simp
  all_goals omega

lemma tbGo_fst_length (gen : ℕ → Except Unit Str) (n : ℕ) :
    ∀ fuel attempt, 1 ≤ fuel → attempt + fuel = max_retries →
      (tbGo gen n attempt fuel).1.length = n := by
  intro fuel
  induction fuel with
  | zero => omega
  | succ fuel ih =>
    intro attempt _ hsum
    rw [tbGo]
    cases hgen : gen attempt with
    | ok blob => exact adjustLines_length _ _
    | error e =>
      by_cases hlt : attempt < max_retries - 1
      · rw [if_pos hlt]
        have : 1 ≤ fuel := by unfold max_retries at hsum hlt; omega
        exact ih (attempt + 1) this (by omega)
      · rw [if_neg hlt]
        simp

lemma translate_batch_length (gen : Str → ℕ → Except Unit Str) (ls : List Str) :
    (translate_batch gen ls).1.length = ls.length := by
  unfold translate_batch
  by_cases h : ls.isEmpty
  · rw [if_pos h]
    have : ls = [] := List.isEmpty_iff.mp h
    simp [this]
  · rw [if_neg h]
    exact tbGo_fst_length _ _ max_retries 0 (by unfold max_retries; omega) rfl

lemma tbGo_no_progress (gen : ℕ → Except Unit Str) (n : ℕ) :
    ∀ fuel attempt, progressEvents (tbGo gen n attempt fuel).2 = [] := by
  intro fuel
  induction fuel with
  | zero => intro attempt; simp [tbGo, progressEvents]
  | succ fuel ih =>
    intro attempt
    rw [tbGo]
    cases hgen : gen attempt with
    | ok blob => simp [progressEvents]
    | error e =>
      by_cases hlt : attempt < max_retries - 1
      · rw [if_pos hlt]
        simp only [progressEvents, List.filterMap_cons]
        simpa [progressEvents] using ih (attempt + 1)
      · rw [if_neg hlt]
        simp [progressEvents]

lemma translate_batch_no_progress (gen : Str → ℕ → Except Unit Str) (ls : List Str) :
    progressEvents (translate_batch gen ls).2 = [] := by
  unfold translate_batch
  by_cases h : ls.isEmpty
  · rw [if_pos h]; simp [progressEvents]
  · rw [if_neg h]; exact tbGo_no_progress _ _ _ _

lemma translate_batch_all_fail (gen : Str → ℕ → Except Unit Str) (ls : List Str)
    (hne : ls ≠ []) (hfail : ∀ k, gen (joinNl ls) k = .error ()) :
    translate_batch gen ls =
      (List.replicate ls.length SENTINEL,
        [Event.attempt, Event.sleep 1, Event.attempt, Event.sleep 2, Event.attempt]) := by
  unfold translate_batch
  rw [if_neg (by simpa using hne)]
  show tbGo (gen (joinNl ls)) ls.length 0 3 = _
  rw [tbGo, hfail 0, if_pos (by unfold max_retries; omega)]
  rw [tbGo, hfail 1, if_pos (by unfold max_retries; omega)]
  rw [tbGo, hfail 2, if_neg (by unfold max_retries; omega)]
  simp [max_retries, retry_delay]

lemma translate_batch_success (gen : Str → ℕ → Except Unit Str) (ls : List Str) (blob : Str)
    (hne : ls ≠ []) (hok : gen (joinNl ls) 0 = .ok blob) :
    translate_batch gen ls =
      (adjustLines (splitNl (pyStrip blob)) ls.length, [Event.attempt]) := by
  unfold translate_batch
  rw [if_neg (by simpa using hne)]
  show tbGo (gen (joinNl ls)) ls.length 0 3 = _
  rw [tbGo, hok]

lemma translate_batch_nil (gen : Str → ℕ → Except Unit Str) :
    translate_batch gen [] = ([], []) := rfl

end SrtMain

namespace SrtMain

lemma batchStarts_zero (B : ℕ) (hB : 1 ≤ B) : batchStarts 0 B = [] := by
  unfold batchStarts
  have h0 : (0 + B - 1) / B = 0 := Nat.div_eq_of_lt (by omega)
  rw [h0]
  simp

lemma batchStarts_pos (N B : ℕ) (hB : 1 ≤ B) (hN : N ≠ 0) :
    batchStarts N B = 0 :: (batchStarts (N - B) B).map (· + B) := by
  unfold batchStarts
  have hnum : (N + B - 1) / B = (N - 1) / B + 1 := by
    have h1 : N + B - 1 = (N - 1) + B := by omega
    rw [h1, Nat.add_div_right _ (by omega)]
  have hnum' : (N - B + B - 1) / B = (N - 1) / B := by
    by_cases hc : N ≤ B
    · have h0 : N - B = 0 := by omega
      rw [h0]
      rw [Nat.div_eq_of_lt (by omega)]
      symm
      exact Nat.div_eq_of_lt (by omega)
    · have h1 : N - B + B - 1 = (N - 1 - B) + B := by omega
      rw [h1, Nat.add_div_right _ (by omega)]
      have h2 : N - 1 = (N - 1 - B) + B := by omega
      conv_rhs => rw [h2]
      rw [Nat.add_div_right _ (by omega)]
  rw [hnum, hnum', List.range_succ_eq_map]
  simp [List.map_map, Function.comp_def, Nat.succ_mul]

lemma batchSlices_cons {α : Type} (l : List α) (B : ℕ) (hB : 1 ≤ B) (hne : l ≠ []) :
    batchSlices l B = l.take B :: batchSlices (l.drop B) B := by
  unfold batchSlices
  rw [batchStarts_pos l.length B hB (by simpa using hne)]
  rw [List.map_cons, List.map_map]
  congr 1
  · simp only [List.drop_zero, Nat.zero_add, Nat.sub_zero]
    by_cases hc : B ≤ l.length
    · rw [min_eq_left hc]
    · rw [min_eq_right (by omega), List.take_of_length_le (by omega),
        List.take_of_length_le (by omega)]
  · have hlen : (l.drop B).length = l.length - B := by simp
    rw [hlen]
    apply List.map_congr_left
    intro i _
    simp only [Function.comp_apply]
    rw [List.drop_drop, Nat.add_comm B i]
    congr 1
    omega

lemma batchSlices_flatten {α : Type} (B : ℕ) (hB : 1 ≤ B) :
    ∀ l : List α, (batchSlices l B).flatten = l := by
  suffices H : ∀ (N : ℕ) (l : List α), l.length ≤ N → (batchSlices l B).flatten = l by
    exact fun l => H l.length l le_rfl
  intro N
  induction N with
  | zero =>
    intro l hl
    have hnil : l = [] := List.eq_nil_of_length_eq_zero (by omega)
    subst hnil
    unfold batchSlices
    rw [List.length_nil, batchStarts_zero B hB]
    rfl
  | succ N ih =>
    intro l hl
    by_cases hne : l = []
    · subst hne
      unfold batchSlices
      rw [List.length_nil, batchStarts_zero B hB]
      rfl
    · rw [batchSlices_cons l B hB hne, List.flatten_cons,
        ih (l.drop B) (by simp; omega), List.take_append_drop]

lemma batchSlices_le {α : Type} (l : List α) (B : ℕ) :
    ∀ c ∈ batchSlices l B, c.length ≤ B := by
  intro c hc
  unfold batchSlices at hc
  obtain ⟨i, hi, rfl⟩ := List.mem_map.mp hc
  simp only [List.length_take, List.length_drop]
  omega

lemma batchSlices_getLast {α : Type} (B : ℕ) (hB : 1 ≤ B) :
    ∀ l : List α, l ≠ [] →
      ∃ c, (batchSlices l B).getLast? = some c ∧
        c.length = if l.length % B = 0 then B else l.length % B := by
  suffices H : ∀ (N : ℕ) (l : List α), l.length ≤ N → l ≠ [] →
      ∃ c, (batchSlices l B).getLast? = some c ∧
        c.length = if l.length % B = 0 then B else l.length % B by
    exact fun l => H l.length l le_rfl
  intro N
  induction N with
  | zero =>
    intro l hl hne
    exact absurd (List.eq_nil_of_length_eq_zero (by omega)) hne
  | succ N ih =>
    intro l hl hne
    rw [batchSlices_cons l B hB hne]
    by_cases hc : l.length ≤ B
    · have hdrop : l.drop B = [] := List.drop_eq_nil_of_le hc
      rw [hdrop]
      have hslices : batchSlices ([] : List α) B = [] := by
        unfold batchSlices
        rw [List.length_nil, batchStarts_zero B hB]
        rfl
      rw [hslices]
      refine ⟨l.take B, rfl, ?_⟩
      rw [List.take_of_length_le hc]
      have hpos : 0 < l.length := List.length_pos.mpr hne
      by_cases heq : l.length = B
      · rw [heq]
        simp [Nat.mod_self]
      · have hlt : l.length < B := by omega
        rw [Nat.mod_eq_of_lt hlt, if_neg (by omega)]
    · have hdne : l.drop B ≠ [] := by
        intro h0
        have := congrArg List.length h0
        simp at this
        omega
      obtain ⟨c, hc1, hc2⟩ := ih (l.drop B) (by simp; omega) hdne
      refine ⟨c, ?_, ?_⟩
      · rw [List.getLast?_cons]
        have : batchSlices (l.drop B) B ≠ [] := by
          rw [batchSlices_cons _ B hB hdne]
          simp
        rw [← hc1]
        cases hE : batchSlices (l.drop B) B with
        | nil => exact absurd hE this
        | cons a as => simp [List.getLast?_cons]
      · rw [hc2]
        have hmod : (l.drop B).length % B = l.length % B := by
          have h1 : (l.drop B).length = l.length - B := by simp
          have h2 : l.length = (l.length - B) + B := by omega
          rw [h1]
          conv_rhs => rw [h2]
          rw [Nat.add_mod_right]
        rw [hmod]

end SrtMain

namespace SrtMain

lemma setTrans_getElem? :
    ∀ (subs : List MSub) (n : ℕ) (t : Str) (k : ℕ),
      (setTrans subs n t)[k]? =
        if k = n then (subs[k]?.map fun e => { e with translated := some t })
        else subs[k]? := by
  intro subs
  induction subs with
  | nil => intro n t k; simp [setTrans]
  | cons e es ih =>
    intro n t k
    cases n with
    | zero =>
      cases k with
      | zero => simp [setTrans]
      | succ k => simp [setTrans]
    | succ n =>
      cases k with
      | zero => simp [setTrans]
      | succ k =>
        simp only [setTrans, List.getElem?_cons_succ]
        rw [ih n t k]
        by_cases hk : k = n
        · rw [if_pos hk, if_pos (by omega)]
        · rw [if_neg hk, if_neg (by omega)]

lemma setTrans_length (subs : List MSub) (n : ℕ) (t : Str) :
    (setTrans subs n t).length = subs.length := by
  induction subs generalizing n with
  | nil => simp [setTrans]
  | cons e es ih =>
    cases n with
    | zero => simp [setTrans]
    | succ n => simp [setTrans, ih]

lemma writeBatch_getElem? :
    ∀ (ts : List Str) (subs : List MSub) (i k : ℕ),
      (writeBatch subs i ts)[k]? =
        if i ≤ k ∧ k < i + ts.length then
          subs[k]?.map fun e => { e with translated := ts[k - i]? }
        else subs[k]? := by
  intro ts
  induction ts with
  | nil =>
    intro subs i k
    show subs[k]? = _
    rw [if_neg (by intro hcontra; simp only [List.length_nil] at hcontra; omega)]
  | cons t ts ih =>
    intro subs i k
    show (writeBatch (setTrans subs i t) (i + 1) ts)[k]? = _
    rw [ih (setTrans subs i t) (i + 1) k]
    by_cases hk0 : k = i
    · subst hk0
      rw [if_neg (by intro hcontra; omega), setTrans_getElem?, if_pos rfl,
        if_pos ⟨le_rfl, by simp only [List.length_cons]; omega⟩]
      simp
    · by_cases hin : i + 1 ≤ k ∧ k < i + 1 + ts.length
      · rw [if_pos hin, setTrans_getElem?, if_neg hk0,
          if_pos ⟨by omega, by simp only [List.length_cons]; omega⟩]
        have hopt : (t :: ts)[k - i]? = ts[k - (i + 1)]? := by
          have h1 : k - i = (k - (i + 1)) + 1 := by omega
          rw [h1, List.getElem?_cons_succ]
        rw [hopt]
      · rw [if_neg hin, setTrans_getElem?, if_neg hk0,
          if_neg (by intro hcontra; simp only [List.length_cons] at hcontra; omega)]

lemma writeBatch_length :
    ∀ (ts : List Str) (subs : List MSub) (i : ℕ),
      (writeBatch subs i ts).length = subs.length := by
  intro ts
  induction ts with
  | nil => intro subs i; rfl
  | cons t ts ih =>
    intro subs i
    show (writeBatch (setTrans subs i t) (i + 1) ts).length = _
    rw [ih, setTrans_length]

lemma writeBatch_fields (ts : List Str) (subs : List MSub) (i k : ℕ) :
    (writeBatch subs i ts)[k]?.map fieldsOf = subs[k]?.map fieldsOf := by
  rw [writeBatch_getElem?]
  split_ifs with h
  · cases subs[k]? <;> simp [fieldsOf]
  · rfl

lemma writeBatch_mono (ts : List Str) (subs : List MSub) (i k : ℕ) (e : MSub)
    (he : subs[k]? = some e) (hs : e.translated.isSome) :
    ∃ e', (writeBatch subs i ts)[k]? = some e' ∧ e'.translated.isSome := by
  rw [writeBatch_getElem?]
  split_ifs with h
  · refine ⟨_, by rw [he]; rfl, ?_⟩
    have hlt : k - i < ts.length := by omega
    simp [List.getElem?_eq_getElem hlt]
  · exact ⟨e, he, hs⟩

lemma writeBatch_sets (ts : List Str) (subs : List MSub) (i k : ℕ)
    (hk : i ≤ k ∧ k < i + ts.length) (hlen : k < subs.length) :
    ∃ e', (writeBatch subs i ts)[k]? = some e' ∧ e'.translated.isSome := by
  rw [writeBatch_getElem?, if_pos hk, List.getElem?_eq_getElem hlen]
  have hlt : k - i < ts.length := by omega
  exact ⟨_, rfl, by simp [List.getElem?_eq_getElem hlt]⟩

end SrtMain

namespace SrtMain

lemma runGo_fst_length (genB : ℕ → Str → ℕ → Except Unit Str) (B total : ℕ) :
    ∀ (starts : List ℕ) (bIdx : ℕ) (subs : List MSub),
      (runGo genB B total starts bIdx subs).1.length = subs.length := by
  intro starts
  induction starts with
  | nil => intro bIdx subs; rfl
  | cons i starts ih =>
    intro bIdx subs
    show (runGo genB B total starts (bIdx + 1) (writeBatch subs i _)).1.length = _
    rw [ih, writeBatch_length]

lemma runGo_fields (genB : ℕ → Str → ℕ → Except Unit Str) (B total : ℕ) :
    ∀ (starts : List ℕ) (bIdx : ℕ) (subs : List MSub) (k : ℕ),
      ((runGo genB B total starts bIdx subs).1)[k]?.map fieldsOf = subs[k]?.map fieldsOf := by
  intro starts
  induction starts with
  | nil => intro bIdx subs k; rfl
  | cons i starts ih =>
    intro bIdx subs k
    show ((runGo genB B total starts (bIdx + 1) (writeBatch subs i _)).1)[k]?.map fieldsOf = _
    rw [ih, writeBatch_fields]

lemma runGo_mono (genB : ℕ → Str → ℕ → Except Unit Str) (B total : ℕ) :
    ∀ (starts : List ℕ) (bIdx : ℕ) (subs : List MSub) (k : ℕ) (e : MSub),
      subs[k]? = some e → e.translated.isSome →
      ∃ e', ((runGo genB B total starts bIdx subs).1)[k]? = some e' ∧ e'.translated.isSome := by
  intro starts
  induction starts with
  | nil => intro bIdx subs k e he hs; exact ⟨e, he, hs⟩
  | cons i starts ih =>
    intro bIdx subs k e he hs
    obtain ⟨e1, he1, hs1⟩ := writeBatch_mono
      (translate_batch (genB bIdx) (((subs.drop i).take (min (i + B) total - i)).map (·.text))).1
      subs i k e he hs
    show ∃ e', ((runGo genB B total starts (bIdx + 1) (writeBatch subs i _)).1)[k]? = some e' ∧ _
    exact ih (bIdx + 1) _ k e1 he1 hs1

lemma runGo_assigns (genB : ℕ → Str → ℕ → Except Unit Str) (B total : ℕ) :
    ∀ (starts : List ℕ) (bIdx : ℕ) (subs : List MSub) (k i0 : ℕ),
      i0 ∈ starts → i0 ≤ k → k < min (i0 + B) total → total ≤ subs.length →
      ∃ e', ((runGo genB B total starts bIdx subs).1)[k]? = some e' ∧ e'.translated.isSome := by
  intro starts
  induction starts with
  | nil => intro bIdx subs k i0 hmem; simp at hmem
  | cons i starts ih =>
    intro bIdx subs k i0 hmem hle hlt htot
    set ts := (translate_batch (genB bIdx) (((subs.drop i).take (min (i + B) total - i)).map (·.text))).1 with hts
    rcases List.mem_cons.mp hmem with hmem | hmem
    · subst hmem
      have hklen : k < subs.length := by omega
      have htslen : ts.length = min (i0 + B) total - i0 := by
        rw [hts, translate_batch_length]
        simp only [List.length_map, List.length_take, List.length_drop]
        omega
      have hrange : i0 ≤ k ∧ k < i0 + ts.length := by
        rw [htslen]
        omega
      obtain ⟨e1, he1, hs1⟩ := writeBatch_sets ts subs i0 k hrange hklen
      show ∃ e', ((runGo genB B total starts (bIdx + 1) (writeBatch subs i0 ts)).1)[k]? = some e' ∧ _
      exact runGo_mono genB B total starts (bIdx + 1) _ k e1 he1 hs1
    · show ∃ e', ((runGo genB B total starts (bIdx + 1) (writeBatch subs i ts)).1)[k]? = some e' ∧ _
      exact ih (bIdx + 1) (writeBatch subs i ts) k i0 hmem hle hlt
        (by rw [writeBatch_length]; exact htot)

lemma runGo_progress (genB : ℕ → Str → ℕ → Except Unit Str) (B total : ℕ) :
    ∀ (starts : List ℕ) (bIdx : ℕ) (subs : List MSub),
      progressEvents (runGo genB B total starts bIdx subs).2 =
        starts.map (fun i => (i, total)) := by
  intro starts
  induction starts with
  | nil => intro bIdx subs; rfl
  | cons i starts ih =>
    intro bIdx subs
    show progressEvents
      (Event.progress i total ::
        ((translate_batch (genB bIdx) _).2 ++ _ ++ (runGo genB B total starts (bIdx + 1) _).2)) = _
    simp only [progressEvents, List.filterMap_cons, List.filterMap_append]
    have h1 := translate_batch_no_progress (genB bIdx)
      (((subs.drop i).take (min (i + B) total - i)).map (·.text))
    simp only [progressEvents] at h1
    rw [h1]
    have h2 : ∀ b : Bool, (List.filterMap
        (fun e => match e with | Event.progress a b => some (a, b) | _ => none)
        (if b then [Event.sleep 1] else [])) = [] := by
      intro b; cases b <;> rfl
    have h3 := ih (bIdx + 1) (writeBatch subs i
      (translate_batch (genB bIdx) (((subs.drop i).take (min (i + B) total - i)).map (·.text))).1)
    simp only [progressEvents] at h3
    rw [h3]
    simp [h2]

end SrtMain

namespace SrtMain

lemma batchStarts_covers (N B k : ℕ) (hB : 1 ≤ B) (hk : k < N) :
    ∃ i ∈ batchStarts N B, i ≤ k ∧ k < min (i + B) N := by
  refine ⟨(k / B) * B, ?_, ?_, ?_⟩
  · unfold batchStarts
    refine List.mem_map.mpr ⟨k / B, List.mem_range.mpr ?_, rfl⟩
    have h1 : N + B - 1 = (N - 1) + B := by omega
    rw [h1, Nat.add_div_right _ (by omega)]
    have h2 : k / B ≤ (N - 1) / B := Nat.div_le_div_right (by omega)
    omega
  · have := Nat.div_add_mod k B
    have hcomm : (k / B) * B = B * (k / B) := Nat.mul_comm _ _
    omega
  · have := Nat.div_add_mod k B
    have hmod : k % B < B := Nat.mod_lt _ (by omega)
    have hcomm : (k / B) * B = B * (k / B) := Nat.mul_comm _ _
    omega

lemma serializeSubs_assigned :
    ∀ subs : List MSub,
      (∀ (k : ℕ) (e : MSub), subs[k]? = some e → e.translated.isSome) →
      ∃ ts : List Str, ts.length = subs.length ∧
        serializeSubs subs =
          some ((List.zipWith (fun e t => renderBlock e.id e.timestamp t) subs ts).flatten) := by
  intro subs
  induction subs with
  | nil => intro _; exact ⟨[], rfl, rfl⟩
  | cons e es ih =>
    intro h
    have he : e.translated.isSome := h 0 e (by simp)
    obtain ⟨t, ht⟩ := Option.isSome_iff_exists.mp he
    obtain ⟨ts', hlen, hser⟩ := ih fun k e' hk => h (k + 1) e' (by simpa using hk)
    refine ⟨t :: ts', by simp [hlen], ?_⟩
    show (match e.translated, serializeSubs es with
      | some t, some rest => some (renderBlock e.id e.timestamp t ++ rest)
      | _, _ => none) = _
    rw [ht, hser]
    simp

lemma zipWith_render_of_fields :
    ∀ (subs subs' : List MSub) (ts : List Str),
      (∀ k : ℕ, subs[k]?.map fieldsOf = subs'[k]?.map fieldsOf) →
      List.zipWith (fun e t => renderBlock e.id e.timestamp t) subs ts =
        List.zipWith (fun e t => renderBlock e.id e.timestamp t) subs' ts := by
  intro subs
  induction subs with
  | nil =>
    intro subs' ts h
    cases subs' with
    | nil => rfl
    | cons e' es' => exact absurd (h 0) (by simp [fieldsOf])
  | cons e es ih =>
    intro subs' ts h
    cases subs' with
    | nil => exact absurd (h 0) (by simp [fieldsOf])
    | cons e' es' =>
      have h0 : fieldsOf e = fieldsOf e' := by
        have := h 0
        simpa using this
      have hid : e.id = e'.id := congrArg Prod.fst h0
      have hts : e.timestamp = e'.timestamp := congrArg (Prod.fst ∘ Prod.snd) h0
      cases ts with
      | nil => rfl
      | cons t ts' =>
        simp only [List.zipWith_cons_cons]
        rw [hid, hts, ih es' ts' fun k => by simpa using h (k + 1)]

lemma translate_srt_content_ok (genB : ℕ → Str → ℕ → Except Unit Str) (content : Str)
    (B : ℕ) (hB : 1 ≤ B) :
    ∃ ts : List Str, ts.length = (parse_srt content).length ∧
      translate_srt_content genB content B =
        .ok ((List.zipWith (fun e t => renderBlock e.id e.timestamp t)
              (parse_srt content) ts).flatten,
          (runGo genB B (parse_srt content).length
            (batchStarts (parse_srt content).length B) 0 (parse_srt content)).2
            ++ [Event.progress 1 1]) := by
  set subs := parse_srt content with hsubs
  set total := subs.length with htotal
  set r := runGo genB B total (batchStarts total B) 0 subs with hr
  have hassign : ∀ (k : ℕ) (e : MSub), (r.1)[k]? = some e → e.translated.isSome := by
    intro k e hk
    have hklen : k < r.1.length := (List.getElem?_eq_some_iff.mp hk).1
    rw [runGo_fst_length] at hklen
    obtain ⟨i0, hmem, hle, hlt⟩ := batchStarts_covers total B k hB hklen
    obtain ⟨e', he', hs'⟩ :=
      runGo_assigns genB B total (batchStarts total B) 0 subs k i0 hmem hle hlt le_rfl
    rw [hr] at hk
    rw [hk] at he'
    cases he'
    exact hs'
  obtain ⟨ts, hlen, hser⟩ := serializeSubs_assigned r.1 hassign
  have hfields : ∀ k, (r.1)[k]?.map fieldsOf = subs[k]?.map fieldsOf := fun k =>
    runGo_fields genB B total (batchStarts total B) 0 subs k
  have hzip := zipWith_render_of_fields r.1 subs ts hfields
  refine ⟨ts, ?_, ?_⟩
  · rw [hlen, hr, runGo_fst_length]
  · unfold translate_srt_content
    rw [if_neg (by omega)]
    simp only [← hsubs, ← htotal, ← hr]
    rw [hser, hzip]

end SrtMain

lemma mem_of_mem_pyStrip {c : Char} {s : Str} (h : c ∈ pyStrip s) : c ∈ s := by
  unfold pyStrip at h
  have h1 := (List.rdropWhile_prefix isPySpace (s.dropWhile isPySpace)).sublist.mem h
  exact (List.dropWhile_sublist isPySpace).mem h1

lemma pyStrip_no_nl {s : Str} (h : '\n' ∉ s) : '\n' ∉ pyStrip s :=
  fun hm => h (mem_of_mem_pyStrip hm)

lemma rdropWhile_of_pyStrip_eq_self {l : Str} (h : pyStrip l = l) :
    l.rdropWhile isPySpace = l := by
  unfold pyStrip at h
  have hdrop : l.dropWhile isPySpace = l := by
    apply (List.dropWhile_sublist isPySpace).eq_of_length
    have h1 : List.Sublist ((l.dropWhile isPySpace).rdropWhile isPySpace)
        (l.dropWhile isPySpace) :=
      (List.rdropWhile_prefix _ _).sublist
    have h2 := h1.length_le
    have h3 := (List.dropWhile_sublist (l := l) isPySpace).length_le
    rw [h] at h2
    omega
  rw [hdrop] at h
  exact h

lemma rdropWhile_append_of_ne {α : Type} (p : α → Bool) (x y : List α)
    (hy : y.rdropWhile p ≠ []) :
    (x ++ y).rdropWhile p = x ++ y.rdropWhile p := by
  unfold List.rdropWhile at hy ⊢
  rw [List.reverse_append, List.dropWhile_append]
  have hne : ¬(y.reverse.dropWhile p).isEmpty := by
    intro hE
    apply hy
    rw [List.isEmpty_iff.mp hE]
    rfl
  rw [if_neg hne, List.reverse_append, List.reverse_reverse]

lemma rdropWhile_append_all {α : Type} (p : α → Bool) (x w : List α)
    (hw : ∀ c ∈ w, p c = true) :
    (x ++ w).rdropWhile p = x.rdropWhile p := by
  unfold List.rdropWhile
  rw [List.reverse_append, List.dropWhile_append]
  have hnil : w.reverse.dropWhile p = [] :=
    List.dropWhile_eq_nil_iff.mpr fun c hc => hw c (List.mem_reverse.mp hc)
  rw [hnil]
  simp

lemma rdropWhile_append_fix {α : Type} (p : α → Bool) (A w : List α)
    (hw : w.rdropWhile p = w) (hne : w ≠ []) :
    (A ++ w).rdropWhile p = A ++ w := by
  rw [rdropWhile_append_of_ne p A w (by rw [hw]; exact hne), hw]

lemma joinNl_concat (Ls : List Str) (L : Str) :
    joinNl (Ls ++ [L]) = if Ls = [] then L else joinNl Ls ++ '\n' :: L := by
  induction Ls with
  | nil => simp [joinNl]
  | cons l Ls ih =>
    cases Ls with
    | nil => simp [joinNl]
    | cons l2 Ls' =>
      show joinNl (l :: ((l2 :: Ls') ++ [L])) = _
      have hup : joinNl (l :: ((l2 :: Ls') ++ [L]))
          = l ++ '\n' :: joinNl ((l2 :: Ls') ++ [L]) := rfl
      rw [hup, ih, if_neg (by simp), if_neg (by simp)]
      show l ++ '\n' :: (joinNl (l2 :: Ls') ++ '\n' :: L)
        = (l ++ '\n' :: joinNl (l2 :: Ls')) ++ '\n' :: L
      simp

namespace SubLine

lemma textLineB_of_canon {l : Str} (hstrip : pyStrip l = l) (hne : l ≠ [])
    (hbare : isBareInt l = false) : textLineB l = true := by
  unfold textLineB
  rw [hstrip, hbare]
  simp [hne]

lemma map_pyStrip_canon {Ls : List Str} (h : ∀ l ∈ Ls, pyStrip l = l) :
    Ls.map pyStrip = Ls := by
  rw [List.map_congr_left h]
  exact List.map_id _

lemma scanSpec_entry_after_ts (b : BlockData) (hb : canonBlock b) (after : List Str)
    (hafter : (after.takeWhile textLineB) = [] ) :
    scanSpec (b.body ++ after) (some (b.num, b.ts, [])) =
      entryOf b :: scanSpec (after.dropWhile textLineB) none := by
  obtain ⟨hts, htsnl, hbody, hlines⟩ := hb
  have halltext : ∀ l ∈ b.body, textLineB l = true := fun l hl =>
    textLineB_of_canon (hlines l hl).1 (hlines l hl).2.1 (hlines l hl).2.2.2
  rw [scanSpec_collect]
  rw [List.takeWhile_append_of_pos halltext, List.dropWhile_append_of_pos halltext, hafter]
  simp only [List.append_nil, List.reverse_nil, List.nil_append]
  rw [map_pyStrip_canon fun l hl => (hlines l hl).1]
  rfl

lemma scanSpec_block (b : BlockData) (hb : canonBlock b) (rest : List Str) :
    scanSpec (blockLinesF b ++ rest) none = entryOf b :: scanSpec rest none := by
  have hidstrip : pyStrip (renderInt b.num) = renderInt b.num := pyStrip_renderInt _
  have hidne : renderInt b.num ≠ [] := renderInt_ne_nil _
  show scanSpec (renderInt b.num :: b.ts :: ((b.body ++ [[]]) ++ rest)) none = _
  rw [scanSpec.eq_3, if_neg (by rw [hidstrip]; exact hidne), pyParseInt_renderInt]
  have hb' := hb
  obtain ⟨hts, htsnl, hbody, hlines⟩ := hb'
  show scanSpec ((b.body ++ [[]]) ++ rest) (some (b.num, pyStrip b.ts, [])) = _
  have happ : (b.body ++ [[]]) ++ rest = b.body ++ ([] :: rest) := by simp
  rw [happ, hts]
  have hafter : (([] : Str) :: rest).takeWhile textLineB = [] := by
    rw [List.takeWhile_cons]
    simp [textLineB, pyStrip_nil]
  have hdrop : (([] : Str) :: rest).dropWhile textLineB = [] :: rest := by
    rw [List.dropWhile_cons]
    simp [textLineB, pyStrip_nil]
  rw [scanSpec_entry_after_ts b hb ([] :: rest) hafter, hdrop]
  rw [scanSpec.eq_3, if_pos pyStrip_nil]

lemma scanSpec_lastBlock (b : BlockData) (hb : canonBlock b) :
    scanSpec (renderInt b.num :: b.ts :: b.body) none = [entryOf b] := by
  have hidstrip : pyStrip (renderInt b.num) = renderInt b.num := pyStrip_renderInt _
  have hidne : renderInt b.num ≠ [] := renderInt_ne_nil _
  obtain ⟨hts, htsnl, hbody, hlines⟩ := hb
  rw [scanSpec.eq_3, if_neg (by rw [hidstrip]; exact hidne), pyParseInt_renderInt]
  show scanSpec b.body (some (b.num, pyStrip b.ts, [])) = _
  have hbody2 : b.body = b.body ++ [] := by simp
  rw [hts, hbody2, scanSpec_entry_after_ts b ⟨hts, htsnl, hbody, hlines⟩ [] rfl]
  rfl

lemma scanSpec_blocks (bs : List BlockData) (blast : BlockData)
    (hcanon : ∀ b ∈ bs, canonBlock b) (hlast : canonBlock blast) :
    scanSpec ((bs.flatMap blockLinesF) ++ (renderInt blast.num :: blast.ts :: blast.body)) none
      = bs.map entryOf ++ [entryOf blast] := by
  induction bs with
  | nil =>
    simp only [List.flatMap_nil, List.nil_append, List.map_nil]
    exact scanSpec_lastBlock blast hlast
  | cons b bs ih =>
    rw [List.flatMap_cons, List.append_assoc, scanSpec_block b (hcanon b (by simp))]
    rw [ih fun x hx => hcanon x (by simp [hx])]
    simp

lemma blockChars_decomp (b : BlockData) :
    blockChars b = coreChars b ++ ['\n', '\n'] := by
  simp [blockChars, coreChars, renderBlock]

lemma coreChars_last_line (b : BlockData) (hb : canonBlock b) :
    ∃ A L, coreChars b = A ++ L ∧ pyStrip L = L ∧ L ≠ [] := by
  obtain ⟨hts, htsnl, hbody, hlines⟩ := hb
  rcases List.eq_nil_or_concat b.body with hnil | ⟨init, L, hconcat⟩
  · exact absurd hnil hbody
  · rw [List.concat_eq_append] at hconcat
    have hL : pyStrip L = L ∧ L ≠ [] := by
      have := hlines L (by rw [hconcat]; simp)
      exact ⟨this.1, this.2.1⟩
    by_cases hinit : init = []
    · refine ⟨renderInt b.num ++ '\n' :: (b.ts ++ ['\n']), L, ?_, hL.1, hL.2⟩
      unfold coreChars
      rw [hconcat, hinit, joinNl_concat, if_pos rfl]
      simp
    · refine ⟨renderInt b.num ++ '\n' :: (b.ts ++ '\n' :: (joinNl init ++ ['\n'])), L,
        ?_, hL.1, hL.2⟩
      unfold coreChars
      rw [hconcat, joinNl_concat, if_neg hinit]
      simp

lemma head_renderInt_append (n : ℤ) (z : Str) :
    ∃ c cs, renderInt n ++ z = c :: cs ∧ isPySpace c = false := by
  obtain ⟨c, cs', hcc⟩ := List.exists_cons_of_ne_nil (renderInt_ne_nil n)
  exact ⟨c, cs' ++ z, by rw [hcc]; rfl,
    renderInt_no_space n c (by rw [hcc]; simp)⟩

lemma pyStrip_serialized (bs : List BlockData) (blast : BlockData)
    (hcanon : ∀ b ∈ bs, canonBlock b) (hlast : canonBlock blast) :
    pyStrip ((bs.map blockChars).flatten ++ blockChars blast)
      = (bs.map blockChars).flatten ++ coreChars blast := by
  have hhead : ∃ c cs, (bs.map blockChars).flatten ++ blockChars blast = c :: cs ∧
      isPySpace c = false := by
    cases bs with
    | nil =>
      simp only [List.map_nil, List.flatten_nil, List.nil_append]
      unfold blockChars renderBlock
      exact head_renderInt_append _ _
    | cons b0 bs' =>
      simp only [List.map_cons, List.flatten_cons, List.append_assoc]
      unfold blockChars renderBlock
      simp only [List.append_assoc]
      exact head_renderInt_append _ _
  obtain ⟨c, cs, hS, hc⟩ := hhead
  unfold pyStrip
  rw [hS, List.dropWhile_cons, hc, ← hS]
  simp only [Bool.false_eq_true, if_false]
  rw [blockChars_decomp blast, ← List.append_assoc]
  rw [rdropWhile_append_all isPySpace _ ['\n', '\n'] (by decide)]
  obtain ⟨A, L, hAL, hLs, hLne⟩ := coreChars_last_line blast hlast
  rw [hAL, ← List.append_assoc]
  rw [rdropWhile_append_fix isPySpace _ L (rdropWhile_of_pyStrip_eq_self hLs) hLne]

lemma reassembleSelf_map_entryOf (bs : List BlockData) :
    reassembleSelf (bs.map entryOf) = (bs.map blockChars).flatten := by
  unfold reassembleSelf blockChars entryOf
  rw [List.map_map]
  rfl

lemma splitNl_coreChars (b : BlockData) (hb : canonBlock b) :
    splitNl (coreChars b) = renderInt b.num :: b.ts :: b.body := by
  obtain ⟨hts, htsnl, hbody, hlines⟩ := hb
  unfold coreChars
  rw [splitNl_append_nl, splitNl_of_not_mem (renderInt_no_nl b.num),
    splitNl_append_nl, splitNl_of_not_mem htsnl,
    splitNl_joinNl hbody fun l hl => (hlines l hl).2.2.1]
  rfl

lemma splitNl_blockChars (bs : List BlockData) (tail : Str)
    (hcanon : ∀ b ∈ bs, canonBlock b) :
    splitNl ((bs.map blockChars).flatten ++ tail)
      = (bs.flatMap blockLinesF) ++ splitNl tail := by
  induction bs with
  | nil => simp
  | cons b bs ih =>
    obtain ⟨hts, htsnl, hbody, hlines⟩ := hcanon b (by simp)
    have hshape : (blockChars b ++ ((bs.map blockChars).flatten ++ tail))
        = renderInt b.num ++ '\n' :: (b.ts ++ '\n' ::
            (joinNl b.body ++ '\n' :: ('\n' :: ((bs.map blockChars).flatten ++ tail)))) := by
      unfold blockChars renderBlock
      simp
    simp only [List.map_cons, List.flatten_cons, List.append_assoc]
    rw [hshape]
    rw [splitNl_append_nl, splitNl_of_not_mem (renderInt_no_nl b.num),
      splitNl_append_nl, splitNl_of_not_mem htsnl,
      splitNl_append_nl, splitNl_joinNl hbody fun l hl => (hlines l hl).2.2.1,
      splitNl_cons_nl, ih fun x hx => hcanon x (by simp [hx])]
    simp [blockLinesF]

lemma parse_srt_reassembleSelf (bs : List BlockData) (hcanon : ∀ b ∈ bs, canonBlock b) :
    parse_srt (reassembleSelf (bs.map entryOf)) = bs.map entryOf := by
  rcases List.eq_nil_or_concat bs with rfl | ⟨binit, blast, hbs⟩
  · rw [parse_srt_eq_scanSpec]
    decide
  · rw [List.concat_eq_append] at hbs
    subst hbs
    have hlast : canonBlock blast := hcanon blast (by simp)
    have hinit : ∀ b ∈ binit, canonBlock b := fun b hb => hcanon b (by simp [hb])
    rw [parse_srt_eq_scanSpec, reassembleSelf_map_entryOf]
    have hflat : ((binit ++ [blast]).map blockChars).flatten
        = (binit.map blockChars).flatten ++ blockChars blast := by
      simp
    rw [hflat, pyStrip_serialized binit blast hinit hlast,
      splitNl_blockChars binit (coreChars blast) hinit,
      splitNl_coreChars blast hlast,
      scanSpec_blocks binit blast hinit hlast]
    simp

lemma closed_entry_stored (n : ℤ) (ts : Str) (acc : List Str)
    (hts : ts.rdropWhile isPySpace = ts)
    (hacc : ∀ a ∈ acc, a.rdropWhile isPySpace = a ∧ '\n' ∉ a) :
    (LSub.mk n ts (joinNl acc.reverse)).timestamp.rdropWhile isPySpace
        = (LSub.mk n ts (joinNl acc.reverse)).timestamp ∧
      ∀ l ∈ splitNl (LSub.mk n ts (joinNl acc.reverse)).text,
        l.rdropWhile isPySpace = l := by
  refine ⟨hts, ?_⟩
  intro l hl
  by_cases hne : acc = []
  · subst hne
    simp only [List.reverse_nil] at hl
    have : splitNl (joinNl []) = [[]] := rfl
    rw [this] at hl
    have : l = [] := by simpa using hl
    subst this
    rfl
  · rw [splitNl_joinNl (by simpa using hne)
      (fun a ha => (hacc a (List.mem_reverse.mp ha)).2)] at hl
    exact (hacc l (List.mem_reverse.mp hl)).1

lemma scanSpec_stored :
    ∀ (N : ℕ) (ls : List Str), ls.length ≤ N → (∀ l ∈ ls, '\n' ∉ l) →
    ∀ (mode : Option (ℤ × Str × List Str)),
      (∀ n ts acc, mode = some (n, ts, acc) →
        ts.rdropWhile isPySpace = ts ∧ ∀ a ∈ acc, a.rdropWhile isPySpace = a ∧ '\n' ∉ a) →
      ∀ e ∈ scanSpec ls mode,
        e.timestamp.rdropWhile isPySpace = e.timestamp ∧
          ∀ l ∈ splitNl e.text, l.rdropWhile isPySpace = l := by
  intro N
  induction N with
  | zero =>
    intro ls hlen hnl mode hinv e he
    have hnil : ls = [] := List.eq_nil_of_length_eq_zero (by omega)
    subst hnil
    rcases mode with _ | ⟨n, ts, acc⟩
    · simp [scanSpec] at he
    · rw [scanSpec.eq_2] at he
      have he' : e = LSub.mk n ts (joinNl acc.reverse) := by simpa using he
      subst he'
      obtain ⟨h1, h2⟩ := hinv n ts acc rfl
      exact closed_entry_stored n ts acc h1 h2
  | succ N ihN =>
    intro ls hlen hnl mode hinv e he
    cases ls with
    | nil =>
      rcases mode with _ | ⟨n, ts, acc⟩
      · simp [scanSpec] at he
      · rw [scanSpec.eq_2] at he
        have he' : e = LSub.mk n ts (joinNl acc.reverse) := by simpa using he
        subst he'
        obtain ⟨h1, h2⟩ := hinv n ts acc rfl
        exact closed_entry_stored n ts acc h1 h2
    | cons l ls' =>
      have hnl' : ∀ x ∈ ls', '\n' ∉ x := fun x hx => hnl x (by simp [hx])
      have hlnl : '\n' ∉ l := hnl l (by simp)
      have hlen' : ls'.length ≤ N := by
        simp only [List.length_cons] at hlen
        omega
      rcases mode with _ | ⟨n, ts, acc⟩
      · by_cases hb : pyStrip l = []
        · have hEq : scanSpec (l :: ls') none = scanSpec ls' none := by
            rw [scanSpec.eq_3, if_pos hb]
          rw [hEq] at he
          exact ihN ls' hlen' hnl' none (by simp) e he
        · cases hp : pyParseInt l with
          | none =>
            have hEq : scanSpec (l :: ls') none = scanSpec ls' none := by
              rw [scanSpec.eq_3, if_neg hb, hp]
            rw [hEq] at he
            exact ihN ls' hlen' hnl' none (by simp) e he
          | some n =>
            cases ls' with
            | nil =>
              have hEq : scanSpec [l] none = [] := by
                rw [scanSpec.eq_3, if_neg hb, hp]
              rw [hEq] at he
              simp at he
            | cons ts0 rest =>
              have hEq : scanSpec (l :: ts0 :: rest) none
                  = scanSpec rest (some (n, pyStrip ts0, [])) := by
                rw [scanSpec.eq_3, if_neg hb, hp]
              rw [hEq] at he
              refine ihN rest (by simp only [List.length_cons] at hlen; omega)
                (fun x hx => hnl' x (by simp [hx])) _ ?_ e he
              intro n' ts' acc' hmode
              have h1 : pyStrip ts0 = ts' := congrArg (Prod.fst ∘ Prod.snd)
                (Option.some.inj hmode)
              have h2 : ([] : List Str) = acc' := congrArg (Prod.snd ∘ Prod.snd)
                (Option.some.inj hmode)
              rw [← h1, ← h2]
              exact ⟨rdropWhile_pyStrip ts0, by simp⟩
      · obtain ⟨hts, hacc⟩ := hinv n ts acc rfl
        by_cases hb : pyStrip l = []
        · have hEq : scanSpec (l :: ls') (some (n, ts, acc))
              = LSub.mk n ts (joinNl acc.reverse) :: scanSpec ls' none := by
            cases ls' with
            | nil => rw [scanSpec.eq_4, if_pos hb]
            | cons a as => rw [scanSpec.eq_5, if_pos hb]
          rw [hEq] at he
          rcases List.mem_cons.mp he with he | he
          · subst he
            exact closed_entry_stored n ts acc hts hacc
          · exact ihN ls' hlen' hnl' none (by simp) e he
        · by_cases hbare : isBareInt (pyStrip l) = true
          · cases ls' with
            | nil =>
              have hEq : scanSpec [l] (some (n, ts, acc))
                  = [LSub.mk n ts (joinNl acc.reverse)] := by
                rw [scanSpec.eq_4, if_neg hb, if_pos hbare]
              rw [hEq] at he
              have he' : e = LSub.mk n ts (joinNl acc.reverse) := by simpa using he
              subst he'
              exact closed_entry_stored n ts acc hts hacc
            | cons ts0 rest =>
              have hEq : scanSpec (l :: ts0 :: rest) (some (n, ts, acc))
                  = LSub.mk n ts (joinNl acc.reverse) ::
                      scanSpec rest (some ((digitsVal (pyStrip l) : ℤ), pyStrip ts0, [])) := by
                rw [scanSpec.eq_5, if_neg hb, if_pos hbare]
              rw [hEq] at he
              rcases List.mem_cons.mp he with he | he
              · subst he
                exact closed_entry_stored n ts acc hts hacc
              · refine ihN rest (by simp only [List.length_cons] at hlen; omega)
                  (fun x hx => hnl' x (by simp [hx])) _ ?_ e he
                intro n' ts' acc' hmode
                have h1 : pyStrip ts0 = ts' := congrArg (Prod.fst ∘ Prod.snd)
                  (Option.some.inj hmode)
                have h2 : ([] : List Str) = acc' := congrArg (Prod.snd ∘ Prod.snd)
                  (Option.some.inj hmode)
                rw [← h1, ← h2]
                exact ⟨rdropWhile_pyStrip ts0, by simp⟩
          · have hEq : scanSpec (l :: ls') (some (n, ts, acc))
                = scanSpec ls' (some (n, ts, pyStrip l :: acc)) := by
              cases ls' with
              | nil => rw [scanSpec.eq_4, if_neg hb, if_neg (by simp [hbare])]
              | cons a as => rw [scanSpec.eq_5, if_neg hb, if_neg (by simp [hbare])]
            rw [hEq] at he
            refine ihN ls' hlen' hnl' _ ?_ e he
            intro n' ts' acc' hmode
            have h1 : ts = ts' := congrArg (Prod.fst ∘ Prod.snd) (Option.some.inj hmode)
            have h2 : pyStrip l :: acc = acc' := congrArg (Prod.snd ∘ Prod.snd)
              (Option.some.inj hmode)
            rw [← h1, ← h2]
            refine ⟨hts, ?_⟩
            intro a ha
            rcases List.mem_cons.mp ha with ha | ha
            · subst ha
              exact ⟨rdropWhile_pyStrip l, pyStrip_no_nl hlnl⟩
            · exact hacc a ha

end SubLine

namespace SrtMain

lemma translate_srt_content_empty (genB : ℕ → Str → ℕ → Except Unit Str) (content : Str)
    (B : ℕ) (hB : 1 ≤ B) (hparse : parse_srt content = []) :
    translate_srt_content genB content B = .ok ([], [Event.progress 1 1]) := by
  unfold translate_srt_content
  rw [if_neg (by omega)]
  simp only [hparse, List.length_nil, batchStarts_zero B hB]
  rfl

lemma batchStarts_mem_lt {N B i : ℕ} (hB : 1 ≤ B) (hi : i ∈ batchStarts N B) : i < N := by
  unfold batchStarts at hi
  obtain ⟨k, hk, rfl⟩ := List.mem_map.mp hi
  rw [List.mem_range] at hk
  by_cases hN : N = 0
  · subst hN
    rw [Nat.div_eq_of_lt (by omega)] at hk
    omega
  · have h1 : N + B - 1 = (N - 1) + B := by omega
    rw [h1, Nat.add_div_right _ (by omega)] at hk
    have h2 : k ≤ (N - 1) / B := by omega
    have h3 : k * B ≤ ((N - 1) / B) * B := Nat.mul_le_mul_right B h2
    have h4 : ((N - 1) / B) * B ≤ N - 1 := Nat.div_mul_le_self _ _
    omega

lemma progressFraction_bounds (i N : ℕ) (h : i ≤ N) :
    0 ≤ progressFraction i N ∧ progressFraction i N ≤ 1 := by
  unfold progressFraction
  constructor
  · positivity
  · by_cases hN : N = 0
    · subst hN
      have : i = 0 := by omega
      subst this
      norm_num
    · rw [div_le_one (by positivity)]
      exact_mod_cast h

lemma translate_srt_content_trace (genB : ℕ → Str → ℕ → Except Unit Str) (content : Str)
    (B : ℕ) (hB : 1 ≤ B) :
    ∃ out evs, translate_srt_content genB content B = .ok (out, evs) ∧
      progressEvents evs =
        (batchStarts (parse_srt content).length B).map
            (fun i => (i, (parse_srt content).length)) ++ [(1, 1)] := by
  obtain ⟨ts, hlen, hok⟩ := translate_srt_content_ok genB content B hB
  refine ⟨_, _, hok, ?_⟩
  unfold progressEvents
  rw [List.filterMap_append]
  have h1 := runGo_progress genB B (parse_srt content).length
    (batchStarts (parse_srt content).length B) 0 (parse_srt content)
  unfold progressEvents at h1
  rw [h1]
  rfl

end SrtMain

/-! ### Claim theorems -/

/-- C1 (amended): for every oracle and input list, translate_batch returns a
list of translated strings whose length equals the length of the input list;
and for every text blob returned by a successful first remote attempt, the
result is exactly the blob stripped of surrounding whitespace, split on
newlines, and then truncated (when too many lines) or padded with empty
strings (when too few) to the input count.  The amendment to the original
claim: the blob is stripped before splitting, so the truncate/pad decision
is made on the stripped blob's lines, not on the raw blob's lines. -/
theorem claim1_amended :
    (∀ (gen : Str → ℕ → Except Unit Str) (text_lines : List Str),
        (SrtMain.translate_batch gen text_lines).1.length = text_lines.length) ∧
    (∀ (gen : Str → ℕ → Except Unit Str) (text_lines : List Str) (blob : Str),
        text_lines ≠ [] → gen (joinNl text_lines) 0 = .ok blob →
        SrtMain.translate_batch gen text_lines =
          (SrtMain.adjustLines (splitNl (pyStrip blob)) text_lines.length,
            [Event.attempt])) :=
  ⟨SrtMain.translate_batch_length,
    fun gen ls blob hne hok => SrtMain.translate_batch_success gen ls blob hne hok⟩

/-- C1 (counterexample): with one input line and a remote blob consisting of
a newline followed by the letter a, the raw blob splits into two lines, so
the claim as stated predicts truncation to the first line, the empty string;
the code instead strips the blob first and returns the letter a.  Hence the
claim's description of the split is false as stated. -/
theorem claim1_counterexample :
    (SrtMain.translate_batch (fun _ _ => Except.ok ['\n', 'a']) [['x']]).1 = [['a']] ∧
    SrtMain.adjustLines (splitNl ['\n', 'a']) 1 = [[]] ∧
    ([['a']] : List Str) ≠ [[]] := by
  refine ⟨by decide, by decide, by decide⟩

/-- C1 (witness): the amended claim instantiated at a concrete oracle and
input. -/
theorem claim1_witness :
    (SrtMain.translate_batch (fun _ _ => Except.ok ['a', '\n', 'b']) [['x']]).1.length
        = ([['x']] : List Str).length ∧
    (([['x']] : List Str) ≠ [] ∧
      SrtMain.translate_batch (fun _ _ => Except.ok ['a', '\n', 'b']) [['x']] =
        (SrtMain.adjustLines (splitNl (pyStrip ['a', '\n', 'b'])) ([['x']] : List Str).length,
          [Event.attempt])) :=
  ⟨claim1_amended.1 (fun _ _ => Except.ok ['a', '\n', 'b']) [['x']],
    by decide,
    claim1_amended.2 (fun _ _ => Except.ok ['a', '\n', 'b']) [['x']] ['a', '\n', 'b']
      (by decide) rfl⟩

/-- C2: if every remote generation attempt fails, translate_batch makes
exactly 3 attempts, sleeps retry_delay times 1 after the first failed
attempt and retry_delay times 2 after the second (linear, attempt-indexed
backoff with base delay 1), returns the sentinel TRANSLATION_ERROR repeated
once per input line after exhausting retries, and lets no exception escape
(the catch-all handler makes the embedded function total: it returns the
sentinel value rather than propagating the error). -/
theorem claim2_thm (gen : Str → ℕ → Except Unit Str) (text_lines : List Str)
    (hne : text_lines ≠ [])
    (hfail : ∀ k, gen (joinNl text_lines) k = .error ()) :
    SrtMain.translate_batch gen text_lines =
      (List.replicate text_lines.length SENTINEL,
        [Event.attempt, Event.sleep 1, Event.attempt, Event.sleep 2, Event.attempt]) :=
  SrtMain.translate_batch_all_fail gen text_lines hne hfail

/-- C2 (witness): the all-fail run on one concrete input line. -/
theorem claim2_witness :
    ([['a']] : List Str) ≠ [] ∧
    SrtMain.translate_batch (fun _ _ => Except.error ()) [['a']] =
      (List.replicate 1 SENTINEL,
        [Event.attempt, Event.sleep 1, Event.attempt, Event.sleep 2, Event.attempt]) :=
  ⟨by decide, claim2_thm (fun _ _ => Except.error ()) [['a']] (by decide) (fun _ => rfl)⟩

/-- C3: for every entry sequence and batch size B at least 1, the Batcher's
slices are contiguous, cover the sequence exactly once in order with no
overlap and no gap (their concatenation is the sequence), each has length at
most B, and when the sequence is nonempty the last batch has size N mod B
when B does not divide N and size B otherwise. -/
theorem claim3_thm {α : Type} (l : List α) (B : ℕ) (hB : 1 ≤ B) :
    (SrtMain.batchSlices l B).flatten = l ∧
    (∀ c ∈ SrtMain.batchSlices l B, c.length ≤ B) ∧
    (l ≠ [] → ∃ c, (SrtMain.batchSlices l B).getLast? = some c ∧
      c.length = if l.length % B = 0 then B else l.length % B) :=
  ⟨SrtMain.batchSlices_flatten B hB l, SrtMain.batchSlices_le l B,
    SrtMain.batchSlices_getLast B hB l⟩

/-- C3 (witness): the batching contract instantiated at a three-element
sequence with batch size two. -/
theorem claim3_witness :
    (1 : ℕ) ≤ 2 ∧
    ((SrtMain.batchSlices [10, 20, 30] 2).flatten = [10, 20, 30] ∧
      (∀ c ∈ SrtMain.batchSlices [10, 20, 30] 2, c.length ≤ 2) ∧
      (([10, 20, 30] : List ℕ) ≠ [] → ∃ c,
        (SrtMain.batchSlices [10, 20, 30] 2).getLast? = some c ∧
        c.length = if ([10, 20, 30] : List ℕ).length % 2 = 0 then 2
          else ([10, 20, 30] : List ℕ).length % 2)) :=
  ⟨by decide, claim3_thm [10, 20, 30] 2 (by decide)⟩

/-- C4: for every oracle, input and batch size B at least 1,
translate_srt_content returns (without raising) an output that is exactly
the concatenation of one block per parsed entry, in parsing order, each
block carrying that entry's id and timestamp verbatim and terminated by a
blank-line separator (the trailing newline pair of renderBlock), with some
translated body text. -/
theorem claim4_thm (genB : ℕ → Str → ℕ → Except Unit Str) (content : Str) (B : ℕ)
    (hB : 1 ≤ B) :
    ∃ (ts : List Str) (evs : List Event),
      ts.length = (SrtMain.parse_srt content).length ∧
      SrtMain.translate_srt_content genB content B =
        .ok ((List.zipWith (fun e t => renderBlock e.id e.timestamp t)
              (SrtMain.parse_srt content) ts).flatten, evs) := by
  obtain ⟨ts, hlen, hok⟩ := SrtMain.translate_srt_content_ok genB content B hB
  exact ⟨ts, _, hlen, hok⟩

/-- C4 (witness): the block-preservation contract instantiated at a concrete
two-entry document. -/
theorem claim4_witness :
    (1 : ℕ) ≤ 1 ∧
    ∃ (ts : List Str) (evs : List Event),
      ts.length = (SrtMain.parse_srt ("1\nts\nHello\n\n2\nts2\nWorld".data)).length ∧
      SrtMain.translate_srt_content (fun _ _ _ => Except.ok ("A\nB".data))
          ("1\nts\nHello\n\n2\nts2\nWorld".data) 1 =
        .ok ((List.zipWith (fun e t => renderBlock e.id e.timestamp t)
              (SrtMain.parse_srt ("1\nts\nHello\n\n2\nts2\nWorld".data)) ts).flatten, evs) :=
  ⟨by decide,
    claim4_thm (fun _ _ _ => Except.ok ("A\nB".data))
      ("1\nts\nHello\n\n2\nts2\nWorld".data) 1 (by decide)⟩

/-- C5 (counterexample): on an input with zero parseable entries,
translate_srt_content does not raise: it returns successfully with an empty
output (after emitting the final 1.0 progress), contradicting the claim
that a structural parse failure is raised to the caller. -/
theorem claim5_counterexample :
    SrtMain.translate_srt_content (fun _ _ _ => Except.error ()) ("x".data) 60
        = .ok ([], [Event.progress 1 1]) ∧
    SrtMain.translate_srt_content (fun _ _ _ => Except.error ()) ("x".data) 60
        ≠ .error () := by
  have h1 : SrtMain.translate_srt_content (fun _ _ _ => Except.error ()) ("x".data) 60
      = .ok ([], [Event.progress 1 1]) := rfl
  refine ⟨h1, fun hcontra => ?_⟩
  rw [h1] at hcontra
  simp at hcontra

/-- C5 (amended): for every input from which the Parser extracts zero
entries and every batch size B at least 1, translate_srt_content performs no
translation attempt (the trace holds no attempt event and the result does
not depend on the remote oracle) and returns successfully with an empty
output and a single final 1.0 progress emission, rather than raising. -/
theorem claim5_amended (genB : ℕ → Str → ℕ → Except Unit Str) (content : Str) (B : ℕ)
    (hB : 1 ≤ B) (hparse : SrtMain.parse_srt content = []) :
    SrtMain.translate_srt_content genB content B = .ok ([], [Event.progress 1 1]) :=
  SrtMain.translate_srt_content_empty genB content B hB hparse

/-- C5 (witness): the amended claim instantiated at a concrete unparseable
input. -/
theorem claim5_witness :
    (1 : ℕ) ≤ 7 ∧ SrtMain.parse_srt ("garbage".data) = [] ∧
    SrtMain.translate_srt_content (fun _ _ _ => Except.ok ("y".data)) ("garbage".data) 7
      = .ok ([], [Event.progress 1 1]) :=
  ⟨by decide, by decide,
    claim5_amended (fun _ _ _ => Except.ok ("y".data)) ("garbage".data) 7
      (by decide) (by decide)⟩

/-- C6 (counterexample): the round trip does not reproduce the normalized
original for every raw input: on the single-line input x (which the Parser
skips entirely), Parser followed by Reassembler yields the empty blob,
while the per-line-stripped normalization of the input is the nonempty blob
x itself. -/
theorem claim6_counterexample :
    SubLine.reassembleSelf (SubLine.parse_srt ['x']) = [] ∧
    SubLine.specNormalizePerLine ['x'] = ['x'] ∧
    ([] : Str) ≠ ['x'] := by
  refine ⟨?_, by decide, by decide⟩
  rw [SubLine.parse_srt_eq_scanSpec]
  decide

/-- C6 (amended): for every raw input that is the Reassembler's
serialization of well-formed blocks (canonically rendered integer id line;
a stripped, newline-free timestamp line; a nonempty body of stripped,
nonempty, newline-free, non-bare-integer text lines), running the Parser
and then the Reassembler with translatedText fixed to sourceText reproduces
the input verbatim: parsing the serialization returns exactly the original
entries, and re-serializing them returns the identical text blob.  Such
inputs are already normalized (every line stripped, blocks separated by
single blank lines). -/
theorem claim6_amended (bs : List SubLine.BlockData)
    (hcanon : ∀ b ∈ bs, SubLine.canonBlock b) :
    SubLine.parse_srt (SubLine.reassembleSelf (bs.map SubLine.entryOf))
        = bs.map SubLine.entryOf ∧
      SubLine.reassembleSelf
          (SubLine.parse_srt (SubLine.reassembleSelf (bs.map SubLine.entryOf)))
        = SubLine.reassembleSelf (bs.map SubLine.entryOf) := by
  have h := SubLine.parse_srt_reassembleSelf bs hcanon
  exact ⟨h, by rw [h]⟩

/-- C6 (witness): the amended round trip instantiated at the specification's
own two-entry example document. -/
theorem claim6_witness :
    (∀ b ∈ [SubLine.BlockData.mk 1 ("00:00:01,000 --> 00:00:02,000".data) ["Hello".data],
        SubLine.BlockData.mk 2 ("00:00:03,000 --> 00:00:04,000".data) ["World".data]],
      SubLine.canonBlock b) ∧
    SubLine.parse_srt (SubLine.reassembleSelf
        (([SubLine.BlockData.mk 1 ("00:00:01,000 --> 00:00:02,000".data) ["Hello".data],
          SubLine.BlockData.mk 2 ("00:00:03,000 --> 00:00:04,000".data)
            ["World".data]]).map SubLine.entryOf))
      = ([SubLine.BlockData.mk 1 ("00:00:01,000 --> 00:00:02,000".data) ["Hello".data],
          SubLine.BlockData.mk 2 ("00:00:03,000 --> 00:00:04,000".data)
            ["World".data]]).map SubLine.entryOf :=
  ⟨by decide,
    (claim6_amended
      [SubLine.BlockData.mk 1 ("00:00:01,000 --> 00:00:02,000".data) ["Hello".data],
        SubLine.BlockData.mk 2 ("00:00:03,000 --> 00:00:04,000".data) ["World".data]]
      (by decide)).1⟩

/-- C7 (counterexample): the Parser does not skip a block with only one
remaining line after the id line: on the input consisting of an id line
followed by a single timestamp line, the claim as stated (fewer than 2
remaining lines after the id means the block is skipped) predicts no entry,
but the Parser produces the entry with an empty text body. -/
theorem claim7_counterexample :
    SubLine.parse_srt ("1\nts".data) = [SubLine.LSub.mk 1 ("ts".data) []] ∧
    SubLine.parse_srt ("1\nts".data) ≠ [] := by
  constructor <;> rw [SubLine.parse_srt_eq_scanSpec] <;> decide

/-- C7 (amended): the Parser scans individual lines, not whole blocks.  For
every raw input it behaves exactly as the mode-based line scan scanSpec on
the stripped input's lines: a blank line or a line failing integer parsing
is skipped on its own; a line parsing as integer n with at least one
following line yields an entry whose id is n, whose timestamp is the next
line stripped, and whose text is the following maximal run of non-blank,
non-bare-integer lines, each stripped and newline-joined, with scanning
resuming after that run (a bare-integer line both ends the run and starts
the next entry); an integer line that is the last line ends parsing with no
entry for it; entries appear in encountered order without sorting or
deduplication. -/
theorem claim7_amended (content : Str) :
    SubLine.parse_srt content = SubLine.scanSpec (splitNl (pyStrip content)) none :=
  SubLine.parse_srt_eq_scanSpec content

/-- C8: every line stored by the Parser in an entry - the timestamp line and
each line of the text body - has its trailing whitespace stripped before
storage (removing trailing whitespace again changes nothing). -/
theorem claim8_thm (content : Str) (e : SubLine.LSub)
    (he : e ∈ SubLine.parse_srt content) :
    e.timestamp.rdropWhile isPySpace = e.timestamp ∧
      ∀ l ∈ splitNl e.text, l.rdropWhile isPySpace = l := by
  rw [SubLine.parse_srt_eq_scanSpec] at he
  exact SubLine.scanSpec_stored (splitNl (pyStrip content)).length _ le_rfl
    (fun l hl => not_mem_of_mem_splitNl hl) none (by simp) e he

/-- C8 (witness): the stripping guarantee instantiated at an input whose
timestamp and text lines carry trailing blanks. -/
theorem claim8_witness :
    (SubLine.LSub.mk 1 ("ts".data) ("hi".data) ∈
      SubLine.parse_srt ("1\nts \nhi \n".data)) ∧
    ((SubLine.LSub.mk 1 ("ts".data) ("hi".data)).timestamp.rdropWhile isPySpace
        = (SubLine.LSub.mk 1 ("ts".data) ("hi".data)).timestamp ∧
      ∀ l ∈ splitNl (SubLine.LSub.mk 1 ("ts".data) ("hi".data)).text,
        l.rdropWhile isPySpace = l) :=
  ⟨by rw [SubLine.parse_srt_eq_scanSpec]; decide,
    claim8_thm ("1\nts \nhi \n".data) (SubLine.LSub.mk 1 ("ts".data) ("hi".data))
      (by rw [SubLine.parse_srt_eq_scanSpec]; decide)⟩

/-- C9 (counterexample): the batch-loop iteration does not write the batch
and then emit completed-entries over total-entries: on a one-entry document
the only iteration emits the fraction 0 over 1 (entries completed before
the batch), not 1 over 1 as the claim's write-then-emit order requires; the
1.0 emission occurs only at final completion. -/
theorem claim9_counterexample :
    SrtMain.translate_srt_content (fun _ _ _ => Except.ok ("Bonjour".data))
        ("1\nts\nHello".data) 60
      = .ok ("1\nts\nBonjour\n\n".data,
          [Event.progress 0 1, Event.attempt, Event.progress 1 1]) ∧
    progressFraction 0 1 ≠ progressFraction 1 1 := by
  refine ⟨rfl, ?_⟩
  unfold progressFraction
  norm_num

/-- C9 (amended): for every document with at least one parsed entry and
batch size B at least 1, each batch-loop iteration first emits progress
equal to the count of entries completed in previous batches divided by the
total entry count, and then writes that batch's translation results; so the
progress invocations are exactly the fractions i over N for each batch
start index i, in order, followed by the final completion emission of 1.0,
each a fraction between 0.0 and 1.0, with onProgress invoked at least once
per batch boundary and once at completion. -/
theorem claim9_amended (genB : ℕ → Str → ℕ → Except Unit Str) (content : Str) (B : ℕ)
    (hB : 1 ≤ B) (_hN : 0 < (SrtMain.parse_srt content).length) :
    ∃ out evs, SrtMain.translate_srt_content genB content B = .ok (out, evs) ∧
      progressEvents evs =
        (SrtMain.batchStarts (SrtMain.parse_srt content).length B).map
            (fun i => (i, (SrtMain.parse_srt content).length)) ++ [(1, 1)] ∧
      ∀ p ∈ progressEvents evs,
        0 ≤ progressFraction p.1 p.2 ∧ progressFraction p.1 p.2 ≤ 1 := by
  obtain ⟨out, evs, hok, htrace⟩ := SrtMain.translate_srt_content_trace genB content B hB
  refine ⟨out, evs, hok, htrace, ?_⟩
  intro p hp
  rw [htrace] at hp
  rcases List.mem_append.mp hp with hp | hp
  · obtain ⟨i, hi, rfl⟩ := List.mem_map.mp hp
    exact SrtMain.progressFraction_bounds i _ (le_of_lt (SrtMain.batchStarts_mem_lt hB hi))
  · have hp' : p = (1, 1) := by simpa using hp
    subst hp'
    exact SrtMain.progressFraction_bounds 1 1 le_rfl

/-- C9 (witness): the amended progress contract instantiated at a concrete
three-entry document with batch size two. -/
theorem claim9_witness :
    (1 : ℕ) ≤ 2 ∧
    0 < (SrtMain.parse_srt ("1\nt1\nA\n\n2\nt2\nB\n\n3\nt3\nC".data)).length ∧
    ∃ out evs,
      SrtMain.translate_srt_content (fun _ _ _ => Except.ok ("X\nY".data))
          ("1\nt1\nA\n\n2\nt2\nB\n\n3\nt3\nC".data) 2 = .ok (out, evs) ∧
      progressEvents evs =
        (SrtMain.batchStarts
            (SrtMain.parse_srt ("1\nt1\nA\n\n2\nt2\nB\n\n3\nt3\nC".data)).length 2).map
          (fun i => (i, (SrtMain.parse_srt
            ("1\nt1\nA\n\n2\nt2\nB\n\n3\nt3\nC".data)).length)) ++ [(1, 1)] ∧
      ∀ p ∈ progressEvents evs,
        0 ≤ progressFraction p.1 p.2 ∧ progressFraction p.1 p.2 ≤ 1 :=
  ⟨by decide, by decide,
    claim9_amended (fun _ _ _ => Except.ok ("X\nY".data))
      ("1\nt1\nA\n\n2\nt2\nB\n\n3\nt3\nC".data) 2 (by decide) (by decide)⟩

/-- C10: called with an empty list of text lines, translate_batch returns
the empty list immediately with an empty event trace: no remote generation
attempt, no retry, and no delay. -/
theorem claim10_thm (gen : Str → ℕ → Except Unit Str) :
    SrtMain.translate_batch gen [] = ([], []) := rfl

/-- Validation of the embedding against the specification's end-to-end
example (section 8, item 6): the two-entry document with a stub translation
client returning the two lines Bonjour and Monde yields the expected output
blob, with the expected progress and attempt trace. -/
theorem spec_end_to_end_example :
    SrtMain.translate_srt_content (fun _ _ _ => Except.ok ("Bonjour\nMonde".data))
      ("1\n00:00:01,000 --> 00:00:02,000\nHello\n\n2\n00:00:03,000 --> 00:00:04,000\nWorld\n\n".data)
      60
    = Except.ok
        (("1\n00:00:01,000 --> 00:00:02,000\nBonjour\n\n2\n00:00:03,000 --> 00:00:04,000\nMonde\n\n").data,
         [Event.progress 0 2, Event.attempt, Event.progress 1 1]) := rfl
